import Mathlib

/-!
Verification of the navigation engine of `assistance/navigation.py`.

The Python module is shallowly embedded below.  Python floats are modelled
as rationals (`ℚ`); `math.sqrt` is modelled by `ratSqrt`, a computable
square root on `ℚ` that is exact on perfect squares (mirroring the fact
that float sqrt is exact on the small perfect squares the tests use) and,
like its float counterpart, an approximation elsewhere.  Python's
`float('inf')` sentinel is modelled by `none : Option ℚ`.  Python dicts
(insertion ordered, update-in-place) are modelled by association lists
with `lookupA`/`updateA`.  Code that can raise (`KeyError`/`IndexError`)
is modelled in the `Option` monad, `none` meaning the Python exception.
-/

/-- Integer square root by Newton iteration with explicit fuel (structural
recursion, hence kernel reducible).  Mirrors the usual `Nat.sqrt` algorithm. -/
def isqrtGo (n : Nat) : Nat → Nat → Nat
  | guess, 0 => guess
  | guess, fuel+1 =>
    if (guess + n / guess) / 2 < guess then isqrtGo n ((guess + n / guess) / 2) fuel
    else guess

/-- Integer square root (floor); exact on perfect squares of realistic size. -/
def isqrt (n : Nat) : Nat := if n ≤ 1 then n else isqrtGo n (n / 2) 64

/-- Model of `math.sqrt` on rationals: exact on perfect squares, a
nonnegative approximation elsewhere (as float sqrt itself is). -/
def ratSqrt (q : ℚ) : ℚ := (isqrt q.num.toNat : ℚ) / (isqrt q.den : ℚ)

theorem ratSqrt_nonneg (q : ℚ) : 0 ≤ ratSqrt q := by
  unfold ratSqrt
  positivity

/-- A 3-D point / vector, `(x, y, z)` tuples of the Python code. -/
structure Pt where
  x : ℚ
  y : ℚ
  z : ℚ
deriving DecidableEq, Repr

def ptZero : Pt := ⟨0, 0, 0⟩

namespace Vector3

/-- `Vector3.sub` of the source. -/
def sub (a b : Pt) : Pt := ⟨a.x - b.x, a.y - b.y, a.z - b.z⟩

/-- `Vector3.distance_sq` of the source. -/
def distance_sq (a b : Pt) : ℚ := (a.x - b.x) ^ 2 + (a.y - b.y) ^ 2 + (a.z - b.z) ^ 2

/-- `Vector3.distance` of the source. -/
def distance (a b : Pt) : ℚ := ratSqrt (distance_sq a b)

/-- `Vector3.normalize` of the source. -/
def normalize (v : Pt) : Pt :=
  let m := ratSqrt (v.x ^ 2 + v.y ^ 2 + v.z ^ 2)
  if m = 0 then ⟨0, 0, 0⟩ else ⟨v.x / m, v.y / m, v.z / m⟩

/-- `Vector3.dot` of the source. -/
def dot (a b : Pt) : ℚ := a.x * b.x + a.y * b.y + a.z * b.z

/-- `Vector3.cross_y` of the source: `a[0] * b[1] - a[1] * b[0]`. -/
def cross_y (a b : Pt) : ℚ := a.x * b.y - a.y * b.x

theorem distance_nonneg (a b : Pt) : 0 ≤ distance a b := ratSqrt_nonneg _

end Vector3

/-- Association-list lookup, first match first — the model of Python dict
access (dict keys are unique, so first match is the match). -/
def lookupA {κ α : Type} [DecidableEq κ] (k : κ) : List (κ × α) → Option α
  | [] => none
  | (k', v) :: t => if k' = k then some v else lookupA k t

/-- Association-list update: replace the first binding of `k` in place, or
append a fresh binding at the end — the model of Python dict assignment
(insertion order preserved, overwrite in place). -/
def updateA {κ α : Type} [DecidableEq κ] (k : κ) (v : α) : List (κ × α) → List (κ × α)
  | [] => [(k, v)]
  | (k', v') :: t => if k' = k then (k, v) :: t else (k', v') :: updateA k v t

theorem lookupA_updateA_self {κ α : Type} [DecidableEq κ] (k : κ) (v : α)
    (l : List (κ × α)) : lookupA k (updateA k v l) = some v := by
  induction l with
  | nil => simp [lookupA, updateA]
  | cons h t ih =>
    obtain ⟨k', v'⟩ := h
    by_cases hk : k' = k <;> simp [lookupA, updateA, hk, ih]

theorem lookupA_updateA_ne {κ α : Type} [DecidableEq κ] (k k' : κ) (v : α)
    (l : List (κ × α)) (h : k ≠ k') : lookupA k' (updateA k v l) = lookupA k' l := by
  induction l with
  | nil => simp [lookupA, updateA, h]
  | cons hd t ih =>
    obtain ⟨k₀, v₀⟩ := hd
    by_cases hk : k₀ = k
    · subst hk
      simp [lookupA, updateA, h]
    · by_cases hk' : k₀ = k' <;> simp [lookupA, updateA, hk, hk', ih, Ne.symm h]

theorem lookupA_mem {κ α : Type} [DecidableEq κ] {k : κ} {v : α}
    {l : List (κ × α)} (h : lookupA k l = some v) : (k, v) ∈ l := by
  induction l with
  | nil => simp [lookupA] at h
  | cons hd t ih =>
    obtain ⟨k₀, v₀⟩ := hd
    by_cases hk : k₀ = k
    · subst hk
      simp [lookupA] at h
      simp [h]
    · simp [lookupA, hk] at h
      exact List.mem_cons_of_mem _ (ih h)

theorem updateA_mem {κ α : Type} [DecidableEq κ] {k : κ} {v : α}
    {l : List (κ × α)} {p : κ × α} (h : p ∈ updateA k v l) :
    p ∈ l ∨ p = (k, v) := by
  induction l with
  | nil => simp [updateA] at h; simp [h]
  | cons hd t ih =>
    obtain ⟨k₀, v₀⟩ := hd
    by_cases hk : k₀ = k
    · subst hk
      simp [updateA] at h
      rcases h with h | h
      · right; simp [h]
      · left; exact List.mem_cons_of_mem _ h
    · simp [updateA, hk] at h
      rcases h with h | h
      · left; simp [h]
      · rcases ih h with h' | h'
        · left; exact List.mem_cons_of_mem _ h'
        · right; exact h'

theorem updateA_keys {κ α : Type} [DecidableEq κ] (k : κ) (v : α)
    (l : List (κ × α)) :
    (updateA k v l).map Prod.fst = l.map Prod.fst ∨
    (updateA k v l).map Prod.fst = l.map Prod.fst ++ [k] := by
  induction l with
  | nil => right; simp [updateA]
  | cons hd t ih =>
    obtain ⟨k₀, v₀⟩ := hd
    by_cases hk : k₀ = k
    · subst hk
      left; simp [updateA]
    · rcases ih with h | h
      · left; simp [updateA, hk, h]
      · right; simp [updateA, hk, h]

theorem updateA_keys_eq {κ α : Type} [DecidableEq κ] (k : κ) (v : α)
    (l : List (κ × α)) :
    (updateA k v l).map Prod.fst =
      if k ∈ l.map Prod.fst then l.map Prod.fst else l.map Prod.fst ++ [k] := by
  induction l with
  | nil => simp [updateA]
  | cons hd t ih =>
    obtain ⟨k₀, v₀⟩ := hd
    by_cases hk : k₀ = k
    · subst hk
      simp [updateA]
    · have hk' : ¬ (k = k₀) := fun h => hk h.symm
      by_cases hmem : k ∈ t.map Prod.fst <;>
        simp [updateA, hk, hk', hmem, ih]

theorem updateA_keys_nodup {κ α : Type} [DecidableEq κ] {k : κ} {v : α}
    {l : List (κ × α)} (hnd : (l.map Prod.fst).Nodup) :
    ((updateA k v l).map Prod.fst).Nodup := by
  rw [updateA_keys_eq]
  by_cases hmem : k ∈ l.map Prod.fst
  · simpa [hmem] using hnd
  · simp [hmem, List.nodup_append, hnd]

/-- A road record as stored in `roads_raw`: identifier, polyline, and the
total length computed by the loader. -/
structure Road where
  road_id : ℤ
  path : List Pt
  length : ℚ
deriving DecidableEq, Repr

/-- A junction record of the input data: location and connected road ids. -/
structure Junction where
  location : Pt
  connected_roads : List ℤ
deriving DecidableEq, Repr

/-- Payload of one adjacency edge: `{'road_id': ..., 'length': ...}`. -/
structure EdgeData where
  road_id : ℤ
  length : ℚ
deriving DecidableEq, Repr

/-- The graph adjacency: `junction_index -> {neighbor -> edge data}`. -/
abbrev Adj := List (Nat × List (Nat × EdgeData))

/-- Consecutive point pairs of a polyline (`for i in range(len(pts) - 1)`). -/
def segPairs (pts : List Pt) : List (Pt × Pt) := pts.zip pts.tail

/-- Road length as computed in `_load_map_data`: sum of consecutive
point distances along the path. -/
def pathLength (pts : List Pt) : ℚ :=
  (segPairs pts).foldl (fun acc pq => acc + Vector3.distance pq.1 pq.2) 0

/-- `NavigationSystem._dist_to_segment`: clamped point-to-segment distance. -/
def distToSegment (p a b : Pt) : ℚ :=
  let ab := Vector3.sub b a
  let ap := Vector3.sub p a
  let ab_sq := ab.x ^ 2 + ab.y ^ 2 + ab.z ^ 2
  if ab_sq = 0 then Vector3.distance p a
  else
    let t := (ap.x * ab.x + ap.y * ab.y + ap.z * ab.z) / ab_sq
    let t' := max 0 (min 1 t)
    let c : Pt := ⟨a.x + t' * ab.x, a.y + t' * ab.y, a.z + t' * ab.z⟩
    Vector3.distance p c

/-- One segment's contribution to the matcher scan: update the tracked
`(best_road, min_dist)` when this segment is strictly closer
(`none` in the second component models the initial `float('inf')`). -/
def scanSeg (pos : Pt) (rid : ℤ) (st : Option ℤ × Option ℚ) (pq : Pt × Pt) :
    Option ℤ × Option ℚ :=
  let d := distToSegment pos pq.1 pq.2
  match st.2 with
  | none => (some rid, some d)
  | some m => if d < m then (some rid, some d) else st

/-- One road's contribution to the matcher scan: the inner segment loop of
`_get_closest_road` (a road with an empty path is skipped by `continue`;
the source's rough `dist_to_start` value is computed but never used). -/
def scanRoad (pos : Pt) (st : Option ℤ × Option ℚ) (road : Road) : Option ℤ × Option ℚ :=
  if road.path = [] then st
  else (segPairs road.path).foldl (scanSeg pos road.road_id) st

/-- `NavigationSystem._get_closest_road`: scan every road of `roads_raw`
(dict value order) and track the global minimum segment distance.
`(none, none)` models the Python `(None, float('inf'))`. -/
def getClosestRoad (pos : Pt) (roadsRaw : List (ℤ × Road)) : Option ℤ × Option ℚ :=
  roadsRaw.foldl (fun st p => scanRoad pos st p.2) (none, none)

/-- A priority-queue element: the Python tuple `(cost, current_node, path)`. -/
structure Entry where
  cost : ℚ
  node : Nat
  path : List Nat
deriving DecidableEq, Repr

/-- Lexicographic comparison of `List Nat`, as Python compares lists. -/
def listLtB : List Nat → List Nat → Bool
  | [], [] => false
  | [], _ :: _ => true
  | _ :: _, [] => false
  | a :: as, b :: bs => if a < b then true else if a = b then listLtB as bs else false

/-- Python tuple order on queue entries: compare cost, then node, then path. -/
def entryLe (a b : Entry) : Bool :=
  a.cost < b.cost ||
    (a.cost == b.cost &&
      (a.node < b.node ||
        (a.node == b.node && (listLtB a.path b.path || a.path == b.path))))

theorem cost_le_of_entryLe {a b : Entry} (h : entryLe a b = true) : a.cost ≤ b.cost := by
  unfold entryLe at h
  simp only [Bool.or_eq_true, Bool.and_eq_true, beq_iff_eq, decide_eq_true_eq] at h
  rcases h with h | ⟨h, _⟩
  · exact le_of_lt h
  · exact le_of_eq h

theorem cost_le_of_not_entryLe {a b : Entry} (h : entryLe a b = false) : b.cost ≤ a.cost := by
  unfold entryLe at h
  simp only [Bool.or_eq_false_iff, Bool.and_eq_false_iff] at h
  have h1 := h.1
  simp only [decide_eq_false_iff_not, not_lt] at h1
  exact h1

/-- Remove a least entry (under the Python tuple order) from the queue.
This is the extensional behaviour of `heapq.heappop`: the heap is one
multiset ordered by the total tuple order. -/
def popMin : List Entry → Option (Entry × List Entry)
  | [] => none
  | e :: es =>
    match popMin es with
    | none => some (e, [])
    | some (m, rest) => if entryLe e m then some (e, es) else some (m, e :: rest)

theorem popMin_eq_none {q : List Entry} : popMin q = none ↔ q = [] := by
  cases q with
  | nil => simp [popMin]
  | cons e es =>
    simp only [popMin]
    cases h : popMin es with
    | none => simp
    | some p =>
      obtain ⟨m, rest⟩ := p
      by_cases hle : entryLe e m <;> simp [hle]

theorem popMin_perm {q : List Entry} {e : Entry} {rest : List Entry}
    (h : popMin q = some (e, rest)) : q.Perm (e :: rest) := by
  induction q generalizing e rest with
  | nil => simp [popMin] at h
  | cons a as ih =>
    simp only [popMin] at h
    cases hm : popMin as with
    | none =>
      rw [hm] at h
      simp at h
      obtain ⟨he, hr⟩ := h
      subst he; subst hr
      have : as = [] := popMin_eq_none.mp hm
      subst this
      rfl
    | some p =>
      obtain ⟨m, mrest⟩ := p
      rw [hm] at h
      by_cases hle : entryLe a m
      · simp [hle] at h
        obtain ⟨he, hr⟩ := h
        subst he; subst hr
        rfl
      · simp [hle] at h
        obtain ⟨he, hr⟩ := h
        subst he; subst hr
        have hperm := ih hm
        exact (hperm.cons a).trans (List.Perm.swap m a mrest)

theorem popMin_min {q : List Entry} {e : Entry} {rest : List Entry}
    (h : popMin q = some (e, rest)) : ∀ e' ∈ q, e.cost ≤ e'.cost := by
  induction q generalizing e rest with
  | nil => simp [popMin] at h
  | cons a as ih =>
    simp only [popMin] at h
    cases hm : popMin as with
    | none =>
      rw [hm] at h
      simp at h
      obtain ⟨he, _⟩ := h
      subst he
      have : as = [] := popMin_eq_none.mp hm
      subst this
      intro e' he'
      simp at he'
      simp [he']
    | some p =>
      obtain ⟨m, mrest⟩ := p
      rw [hm] at h
      by_cases hle : entryLe a m
      · simp [hle] at h
        obtain ⟨he, _⟩ := h
        subst he
        intro e' he'
        rcases List.mem_cons.mp he' with h' | h'
        · simp [h']
        · exact le_trans (cost_le_of_entryLe hle) (ih hm e' h')
      · simp [hle] at h
        obtain ⟨he, _⟩ := h
        subst he
        intro e' he'
        rcases List.mem_cons.mp he' with h' | h'
        · subst h'
          exact cost_le_of_not_entryLe (Bool.eq_false_iff.mpr hle)
        · exact ih hm e' h'

/-- Edge lookup in the adjacency structure: `self.adjacency[u][v]`. -/
def findEdge (adj : Adj) (u v : Nat) : Option EdgeData :=
  match lookupA u adj with
  | none => none
  | some ns => lookupA v ns

/-- The neighbor-relaxation loop body of `dijkstra`: for each neighbor `v`
not yet visited, if `cost + weight` beats `min_dist.get(v, inf)`, record the
new cost and push `(new_cost, v, path)`. -/
def relaxNeighbors (visited : List Nat) (cost : ℚ) (path : List Nat) :
    List (Nat × EdgeData) → List Entry → List (Nat × ℚ) → List Entry × List (Nat × ℚ)
  | [], queue, minDist => (queue, minDist)
  | vd :: rest, queue, minDist =>
    if vd.1 ∈ visited then relaxNeighbors visited cost path rest queue minDist
    else
      match lookupA vd.1 minDist with
      | none =>
        relaxNeighbors visited cost path rest
          (queue ++ [⟨cost + vd.2.length, vd.1, path⟩])
          (updateA vd.1 (cost + vd.2.length) minDist)
      | some oldCost =>
        if cost + vd.2.length < oldCost then
          relaxNeighbors visited cost path rest
            (queue ++ [⟨cost + vd.2.length, vd.1, path⟩])
            (updateA vd.1 (cost + vd.2.length) minDist)
        else relaxNeighbors visited cost path rest queue minDist

/-- The main loop of `NavigationGraph.dijkstra`, with explicit fuel (the
Python `while queue` loop terminates because pushes are bounded; `dijkstra`
below supplies enough fuel that the fuel-exhausted branch is never taken). -/
def dijkstraLoop (adj : Adj) (endJ : Nat) :
    Nat → List Entry → List Nat → List (Nat × ℚ) → List Nat
  | 0, _, _, _ => []
  | fuel+1, queue, visited, minDist =>
    match popMin queue with
    | none => []
    | some (e, queue') =>
      if e.node ∈ visited then dijkstraLoop adj endJ fuel queue' visited minDist
      else
        let visited' := e.node :: visited
        let path' := e.path ++ [e.node]
        if e.node = endJ then path'
        else
          match lookupA e.node adj with
          | none => dijkstraLoop adj endJ fuel queue' visited' minDist
          | some ns =>
            let qm := relaxNeighbors visited' e.cost path' ns queue' minDist
            dijkstraLoop adj endJ fuel qm.1 visited' qm.2

/-- Total number of adjacency entries, used to bound the loop's iterations. -/
def graphSize (adj : Adj) : Nat := (adj.map (fun p => p.2.length)).sum

/-- `NavigationGraph.dijkstra(start, end)`: returns the junction-index path,
or `[]` when the queue empties without reaching the destination. -/
def dijkstra (adj : Adj) (startJ endJ : Nat) : List Nat :=
  dijkstraLoop adj endJ (graphSize adj + 1) [⟨0, startJ, []⟩] [] [(startJ, 0)]

/-- A path through the graph from `s` to `e`: nonempty, starts at `s`, ends
at `e`, and every consecutive pair is an adjacency edge. -/
def GoodPath (adj : Adj) (s e : Nat) (p : List Nat) : Prop :=
  p.head? = some s ∧ p.getLast? = some e ∧
    List.Chain' (fun u v => (findEdge adj u v).isSome) p

/-- Executable edge-chain check used to decide `GoodPath`. -/
def edgeChainB (adj : Adj) : List Nat → Bool
  | u :: v :: rest => (findEdge adj u v).isSome && edgeChainB adj (v :: rest)
  | _ => true

theorem edgeChainB_iff (adj : Adj) : ∀ p : List Nat,
    edgeChainB adj p = true ↔ List.Chain' (fun u v => (findEdge adj u v).isSome) p := by
  intro p
  induction p with
  | nil => simp [edgeChainB]
  | cons u t ih =>
    cases t with
    | nil => simp [edgeChainB]
    | cons v rest =>
      rw [List.chain'_cons, ← ih]
      simp [edgeChainB]

instance (adj : Adj) (s e : Nat) (p : List Nat) : Decidable (GoodPath adj s e p) :=
  decidable_of_iff (p.head? = some s ∧ p.getLast? = some e ∧ edgeChainB adj p = true)
    (by
      constructor
      · rintro ⟨h1, h2, h3⟩
        exact ⟨h1, h2, (edgeChainB_iff adj p).mp h3⟩
      · rintro ⟨h1, h2, h3⟩
        exact ⟨h1, h2, (edgeChainB_iff adj p).mpr h3⟩)

/-- Total weight of a junction path: the sum of the `length` fields of the
adjacency edges along it (0 for a missing edge; on a `GoodPath` every edge
is present). -/
def pathWeight (adj : Adj) : List Nat → ℚ
  | u :: v :: rest =>
    (match findEdge adj u v with
     | some d => d.length
     | none => 0) + pathWeight adj (v :: rest)
  | _ => 0

/-- All edge weights of the adjacency are nonnegative (true of every graph
the loader builds, since lengths are sums of distances or absolute values). -/
def NonnegAdj (adj : Adj) : Prop :=
  ∀ p ∈ adj, ∀ q ∈ p.2, 0 ≤ q.2.length

/-- Every per-junction neighbor dict has pairwise-distinct keys (true of
every graph the loader builds: Python dicts cannot repeat keys). -/
def WFAdj (adj : Adj) : Prop :=
  ∀ p ∈ adj, (p.2.map Prod.fst).Nodup

/-- A road as it appears in the input JSON (before the loader adds length). -/
structure RoadIn where
  road_id : ℤ
  path : List Pt
deriving DecidableEq, Repr

/-- The parsed map JSON: `{'roads': [...], 'junctions': [...]}`. -/
structure MapData where
  roads : List RoadIn
  junctions : List Junction
deriving DecidableEq, Repr

/-- Full mutable state of `NavigationSystem` relevant to route logic (the
map fields as populated by `_load_map_data`, plus the route state; the init
defaults are `destination_junction_idx = 1`, empty route, flag false). -/
structure NavState where
  adjacency : Adj
  junction_locations : List (Nat × Pt)
  roads_raw : List (ℤ × Road)
  junctions_raw : List Junction
  destination_junction_idx : Nat
  current_route_junctions : List Nat
  current_route_roads : List ℤ
  last_known_road_id : Option ℤ
  next_maneuver_emitted : Bool
deriving DecidableEq, Repr

/-- Step 1 of `_load_map_data`: store each road in `roads_raw` keyed by id,
with its computed polyline length (later duplicates overwrite). -/
def buildRoadsRaw (roads : List RoadIn) : List (ℤ × Road) :=
  roads.foldl (fun m r => updateA r.road_id ⟨r.road_id, r.path, pathLength r.path⟩ m) []

/-- Step 2 of `_load_map_data`: `add_junction(idx, location)` for each
junction, creating an empty adjacency dict per junction index. -/
def buildNodes (junctions : List Junction) : Adj × List (Nat × Pt) :=
  junctions.enum.foldl
    (fun g p =>
      ((if (lookupA p.1 g.1).isSome then g.1 else g.1 ++ [(p.1, [])]),
        updateA p.1 p.2.location g.2))
    ([], [])

/-- Reverse index `road_id -> [junction indices]` built in `_load_map_data`. -/
def buildRoadToJunctions (junctions : List Junction) : List (ℤ × List Nat) :=
  junctions.enum.foldl
    (fun m p =>
      p.2.connected_roads.foldl
        (fun m' rid => updateA rid ((lookupA rid m').getD [] ++ [p.1]) m') m)
    []

/-- `NavigationGraph.add_road_connection`: set both directed dict entries.
`none` models the Python `KeyError` when a junction index is not a node. -/
def addRoadConnection (adj : Adj) (jf jt : Nat) (rid : ℤ) (w : ℚ) : Option Adj := do
  let nf ← lookupA jf adj
  let adj1 := updateA jf (updateA jt ⟨rid, w⟩ nf) adj
  let nt ← lookupA jt adj1
  pure (updateA jt (updateA jf ⟨rid, w⟩ nt) adj1)

/-- The projection scan of the multi-junction branch of `_load_map_data`:
over all polyline segments, track `(min_dist, best_segment_idx, best_t)`
(initially `(inf, 0, 0)`, modelled with `none` for `inf`). -/
def bestProjection (path : List Pt) (jloc : Pt) : Option ℚ × Nat × ℚ :=
  (List.range (path.length - 1)).foldl
    (fun st i =>
      let p1 := path.getD i ptZero
      let p2 := path.getD (i+1) ptZero
      let ab := Vector3.sub p2 p1
      let ap := Vector3.sub jloc p1
      let ab_sq := ab.x ^ 2 + ab.y ^ 2 + ab.z ^ 2
      if 0 < ab_sq then
        let t := max 0 (min 1 ((ap.x * ab.x + ap.y * ab.y + ap.z * ab.z) / ab_sq))
        let c : Pt := ⟨p1.x + t * ab.x, p1.y + t * ab.y, p1.z + t * ab.z⟩
        let d := Vector3.distance jloc c
        match st.1 with
        | none => (some d, i, t)
        | some md => if d < md then (some d, i, t) else st
      else st)
    (none, 0, 0)

/-- Cumulative distance along the polyline up to a junction's projection,
as computed in the multi-junction branch of `_load_map_data`. -/
def distAlongPath (path : List Pt) (jloc : Pt) : ℚ :=
  let bp := bestProjection path jloc
  (List.range bp.2.1).foldl
      (fun acc i => acc + Vector3.distance (path.getD i ptZero) (path.getD (i+1) ptZero)) 0
    + (if bp.2.1 < path.length - 1 then
        bp.2.2 * Vector3.distance (path.getD bp.2.1 ptZero) (path.getD (bp.2.1 + 1) ptZero)
      else 0)

/-- Stable insertion into a list sorted by the second component. -/
def insertSorted (x : Nat × ℚ) : List (Nat × ℚ) → List (Nat × ℚ)
  | [] => [x]
  | y :: ys => if y.2 ≤ x.2 then y :: insertSorted x ys else x :: y :: ys

/-- Stable sort by position along the road — the model of Python's stable
`junction_positions.sort(key=lambda x: x[1])`. -/
def sortByPos (l : List (Nat × ℚ)) : List (Nat × ℚ) :=
  l.foldl (fun acc x => insertSorted x acc) []

/-- Connect adjacent junctions of the sorted multi-junction list, each edge
weighted `abs(dist_to - dist_from)`. -/
def connectAdjacent (rid : ℤ) : List (Nat × ℚ) → Adj → Option Adj
  | a :: b :: rest, adj => do
    let adj' ← addRoadConnection adj a.1 b.1 rid |b.2 - a.2|
    connectAdjacent rid (b :: rest) adj'
  | _, adj => some adj

/-- The edge-building body of `_load_map_data` for one entry of the reverse
road index: two-junction roads get one direct edge weighted by the road's
full length; roads with more than two junctions get adjacent projected
junctions connected; other roads (dead ends) produce no edge. -/
def loadEdgeStep (roadsRaw : List (ℤ × Road)) (junctions : List Junction)
    (adj : Adj) (p : ℤ × List Nat) : Option Adj :=
  match p.2 with
  | [j0, j1] => do
    let rd ← lookupA p.1 roadsRaw
    addRoadConnection adj j0 j1 p.1 rd.length
  | js =>
    if 2 < js.length then do
      let rd ← lookupA p.1 roadsRaw
      let jps ← js.mapM (fun j => do
        let jd ← junctions.get? j
        pure (j, distAlongPath rd.path jd.location))
      connectAdjacent p.1 (sortByPos jps) adj
    else pure adj

/-- `_load_map_data` (minus file I/O and JSON parsing, which are out of
scope): build `roads_raw`, the graph nodes, the reverse road index, and
the edges.  The returned state carries the `__init__` route defaults
(destination junction 1, empty route, flag false). -/
def loadMapData (d : MapData) : Option NavState := do
  let roadsRaw := buildRoadsRaw d.roads
  let nodes := buildNodes d.junctions
  let rtj := buildRoadToJunctions d.junctions
  let adj ← rtj.foldlM (loadEdgeStep roadsRaw d.junctions) nodes.1
  pure { adjacency := adj, junction_locations := nodes.2, roads_raw := roadsRaw,
         junctions_raw := d.junctions, destination_junction_idx := 1,
         current_route_junctions := [], current_route_roads := [],
         last_known_road_id := none, next_maneuver_emitted := false }

/-- `NOTIFICATION_DISTANCE` constant (150.0 meters). -/
def NOTIFICATION_DISTANCE : ℚ := 150

/-- `OFF_ROUTE_TOLERANCE` constant (50.0 meters). -/
def OFF_ROUTE_TOLERANCE : ℚ := 50

/-- The leg-advancement loop of `process`: while the route is nonempty and
its front is not the matched road, pop the front and reset the
`next_maneuver_emitted` flag. Returns the remaining roads and the flag. -/
def advanceRoute (roadId : ℤ) : List ℤ → Bool → List ℤ × Bool
  | [], flag => ([], flag)
  | r :: rest, flag =>
    if r = roadId then (r :: rest, flag) else advanceRoute roadId rest false

/-- The junction scan of `_recalculate_route`: indices of all junctions
whose `connected_roads` contain the given road, in order. -/
def connectedJunctions (junctions : List Junction) (rid : ℤ) : List Nat :=
  (junctions.enum.filter (fun p => rid ∈ p.2.connected_roads)).map Prod.fst

/-- Conversion of the junction path to a road path in `_recalculate_route`:
read `adjacency[u][v]['road_id']` off each consecutive pair (`none` models
the `KeyError` on a missing edge, which cannot happen for dijkstra output). -/
def roadsFromPath (adj : Adj) : List Nat → Option (List ℤ)
  | u :: v :: rest => do
    let e ← findEdge adj u v
    let rs ← roadsFromPath adj (v :: rest)
    pure (e.road_id :: rs)
  | _ => some []

/-- `NavigationSystem._recalculate_route` (the `map_loaded` guard is outside
this model: a `NavState` exists only for a loaded map): find the junctions
touching the matched road (unchanged state if none), run dijkstra from the
first one to the destination, convert to a road list, prepend the matched
road when the list is empty or does not already start with it, and reset
the maneuver flag. -/
def recalculateRoute (s : NavState) (startRoadId : ℤ) : Option NavState :=
  match connectedJunctions s.junctions_raw startRoadId with
  | [] => some s
  | startNode :: _ => do
    let pathIndices := dijkstra s.adjacency startNode s.destination_junction_idx
    let roads ← roadsFromPath s.adjacency pathIndices
    let roads' := if roads = [] ∨ roads.head? ≠ some startRoadId
      then startRoadId :: roads else roads
    pure { s with current_route_junctions := pathIndices,
                  current_route_roads := roads',
                  next_maneuver_emitted := false }

/-- Incoming direction vector at the junction in `_determine_maneuver`:
from a point a few indices before the near end toward the near end. -/
def incomingVec (rcp : List Pt) (jloc : Pt) : Pt :=
  let distStart := Vector3.distance_sq (rcp.getD 0 ptZero) jloc
  let distEnd := Vector3.distance_sq (rcp.getD (rcp.length - 1) ptZero) jloc
  if distEnd < distStart then
    Vector3.sub (rcp.getD (rcp.length - 1) ptZero) (rcp.getD (rcp.length - 5) ptZero)
  else
    Vector3.sub (rcp.getD 0 ptZero) (rcp.getD (min (rcp.length - 1) 5) ptZero)

/-- Outgoing direction vector on the next road in `_determine_maneuver`. -/
def outgoingVec (rnp : List Pt) (jloc : Pt) : Pt :=
  let distStartN := Vector3.distance_sq (rnp.getD 0 ptZero) jloc
  let distEndN := Vector3.distance_sq (rnp.getD (rnp.length - 1) ptZero) jloc
  if distStartN < distEndN then
    Vector3.sub (rnp.getD (min (rnp.length - 1) 5) ptZero) (rnp.getD 0 ptZero)
  else
    Vector3.sub (rnp.getD (rnp.length - 5) ptZero) (rnp.getD (rnp.length - 1) ptZero)

/-- The final classification of `_determine_maneuver`: normalize both
vectors, "Go Straight" when the dot product exceeds 0.8, otherwise left or
right by the sign of the 2-D cross product. -/
def classifyTurn (vin vout : Pt) : String :=
  let vi := Vector3.normalize vin
  let vo := Vector3.normalize vout
  if 4/5 < Vector3.dot vi vo then "Go Straight"
  else if 0 < Vector3.cross_y vi vo then "Turn Left"
  else "Turn Right"

/-- `NavigationSystem._determine_maneuver`: `none` models the Python crash
on a missing road id or an empty polyline (`IndexError` on `path[0]`). -/
def determineManeuver (s : NavState) (currentRoadId nextRoadId : ℤ)
    (junctionIdx : Nat) : Option String := do
  let rc ← lookupA currentRoadId s.roads_raw
  let rn ← lookupA nextRoadId s.roads_raw
  let jd ← s.junctions_raw.get? junctionIdx
  if rc.path = [] ∨ rn.path = [] then none
  else
    some (classifyTurn (incomingVec rc.path jd.location) (outgoingVec rn.path jd.location))

/-- The junction-search loop of step 5 of `process`: the first junction of
`current_route_junctions` whose connected roads contain both the current
and the next road; the outer `none` models the `IndexError` when a route
junction index is out of range of `junctions_raw`. -/
def findConnectingJunction (junctions : List Junction) (route : List Nat)
    (cur next : ℤ) : Option (Option Nat) :=
  match route with
  | [] => some none
  | j :: rest => do
    let jd ← junctions.get? j
    if cur ∈ jd.connected_roads ∧ next ∈ jd.connected_roads then pure (some j)
    else findConnectingJunction junctions rest cur next

/-- Step 4 of `NavigationSystem.process` (the route logic): pop completed
legs when on route, else recalculate when close enough to the matched
road.  Returns the updated state (`none` models a Python exception). -/
def processRouteLogic (s : NavState) (roadId : ℤ) (distToRoad : Option ℚ) :
    Option NavState :=
  let onRoute := roadId ∈ s.current_route_roads
  let rf := if onRoute then advanceRoute roadId s.current_route_roads s.next_maneuver_emitted
            else (s.current_route_roads, s.next_maneuver_emitted)
  let s1 : NavState :=
    { s with current_route_roads := rf.1, next_maneuver_emitted := rf.2 }
  if ¬ onRoute ∨ s1.current_route_roads = [] then
    if (match distToRoad with | none => false | some d => decide (d < OFF_ROUTE_TOLERANCE)) then
      recalculateRoute s1 roadId
    else pure s1
  else pure s1

/-- Step 5 of `NavigationSystem.process` (navigation instructions): with at
least two route roads left, find the junction connecting the current and
next road and emit a turn notification once within the threshold; with one
left, emit the arrival notification once within 50m of the final route
junction. -/
def processEmit (s3 : NavState) (pos : Pt) (roadId : ℤ) :
    Option (NavState × List String) :=
  match s3.current_route_roads with
  | _ :: nextRoadId :: _ => do
    match ← findConnectingJunction s3.junctions_raw s3.current_route_junctions roadId nextRoadId with
    | some targetJunctionIdx => do
      let jd ← s3.junctions_raw.get? targetJunctionIdx
      let distToJunction := Vector3.distance pos jd.location
      if distToJunction < NOTIFICATION_DISTANCE ∧ s3.next_maneuver_emitted = false then do
        let m ← determineManeuver s3 roadId nextRoadId targetJunctionIdx
        pure ({ s3 with next_maneuver_emitted := true },
          [m ++ " in " ++ toString distToJunction.floor ++ "m"])
      else pure (s3, [])
    | none => pure (s3, [])
  | [_] =>
    match s3.current_route_junctions.getLast? with
    | none => pure (s3, [])
    | some destJIdx => do
      let jd ← s3.junctions_raw.get? destJIdx
      let d := Vector3.distance pos jd.location
      if d < 50 ∧ s3.next_maneuver_emitted = false then
        pure ({ s3 with next_maneuver_emitted := true }, ["Destination Reached"])
      else pure (s3, [])
  | [] => pure (s3, [])

/-- Steps 4 and 5 of `NavigationSystem.process` given the map matcher's
result, with `last_known_road_id` recorded in between as in the source. -/
def processMatched (s : NavState) (pos : Pt) (roadId : ℤ) (distToRoad : Option ℚ) :
    Option (NavState × List String) := do
  let s2 ← processRouteLogic s roadId distToRoad
  processEmit { s2 with last_known_road_id := some roadId } pos roadId

/-- `NavigationSystem.process` for a loaded, enabled system, one position
sample per tick (the game-unit conversion and the disabled/unloaded early
returns are outside the route logic the claims concern): run the map
matcher, then the route logic; an unmatched position (`road_id is None`)
returns with no state change and no emission. -/
def process (s : NavState) (pos : Pt) : Option (NavState × List String) :=
  match getClosestRoad pos s.roads_raw with
  | (none, _) => some (s, [])
  | (some roadId, distToRoad) => processMatched s pos roadId distToRoad

theorem lookupA_of_mem_nodup {κ α : Type} [DecidableEq κ] {k : κ} {v : α}
    {l : List (κ × α)} (hnd : (l.map Prod.fst).Nodup) (hmem : (k, v) ∈ l) :
    lookupA k l = some v := by
  induction l with
  | nil => simp at hmem
  | cons hd t ih =>
    obtain ⟨k₀, v₀⟩ := hd
    rw [List.map_cons, List.nodup_cons] at hnd
    rcases List.mem_cons.mp hmem with h | h
    · rw [Prod.mk.injEq] at h
      obtain ⟨h1, h2⟩ := h
      subst h1; subst h2
      simp [lookupA]
    · have hk : k₀ ≠ k := by
        intro hkk
        subst hkk
        have hmm := List.mem_map_of_mem Prod.fst h
        exact hnd.1 hmm
      simp [lookupA, hk]
      exact ih hnd.2 h

theorem findEdge_nonneg {adj : Adj} {u v : Nat} {d : EdgeData}
    (hnn : NonnegAdj adj) (h : findEdge adj u v = some d) : 0 ≤ d.length := by
  unfold findEdge at h
  cases hu : lookupA u adj with
  | none => rw [hu] at h; exact absurd h (by simp)
  | some ns =>
    rw [hu] at h
    exact hnn (u, ns) (lookupA_mem hu) (v, d) (lookupA_mem h)

theorem goodPath_singleton (adj : Adj) (s : Nat) : GoodPath adj s s [s] :=
  ⟨rfl, rfl, List.chain'_singleton s⟩

theorem goodPath_ne_nil {adj : Adj} {s e : Nat} {p : List Nat}
    (h : GoodPath adj s e p) : p ≠ [] := by
  intro hp
  rw [hp] at h
  exact absurd h.1 (by simp)

theorem pathWeight_append_edge {adj : Adj} {p : List Nat} {u v : Nat} {d : EdgeData}
    (hne : p ≠ []) (hlast : p.getLast? = some u) (hedge : findEdge adj u v = some d) :
    pathWeight adj (p ++ [v]) = pathWeight adj p + d.length := by
  induction p with
  | nil => exact absurd rfl hne
  | cons a t ih =>
    cases t with
    | nil =>
      simp at hlast
      subst hlast
      simp [pathWeight, hedge]
    | cons b rest =>
      have hlast' : (b :: rest).getLast? = some u := by
        rw [List.getLast?_cons_cons] at hlast
        exact hlast
      have := ih (by simp) hlast'
      simp only [List.cons_append, List.append_eq, pathWeight] at *
      rw [this]
      ring

theorem goodPath_append_edge {adj : Adj} {s u v : Nat} {p : List Nat} {d : EdgeData}
    (h : GoodPath adj s u p) (hedge : findEdge adj u v = some d) :
    GoodPath adj s v (p ++ [v]) := by
  obtain ⟨hh, hl, hc⟩ := h
  refine ⟨?_, ?_, ?_⟩
  · cases p with
    | nil => simp at hh
    | cons a t => simpa using hh
  · simp
  · rw [List.chain'_append]
    refine ⟨hc, List.chain'_singleton v, ?_⟩
    intro x hx y hy
    simp at hy
    subst hy
    rw [hl] at hx
    injection hx with hx
    subst hx
    simp [hedge]

theorem pathWeight_nonneg {adj : Adj} (hnn : NonnegAdj adj) :
    ∀ {p : List Nat}, List.Chain' (fun u v => (findEdge adj u v).isSome) p →
      0 ≤ pathWeight adj p := by
  intro p
  induction p with
  | nil => intro _; simp [pathWeight]
  | cons a t ih =>
    intro hc
    cases t with
    | nil => simp [pathWeight]
    | cons b rest =>
      rw [List.chain'_cons] at hc
      obtain ⟨hab, hc'⟩ := hc
      have h1 := ih hc'
      cases hd : findEdge adj a b with
      | none => rw [hd] at hab; simp at hab
      | some d =>
        have h2 := findEdge_nonneg hnn hd
        simp only [pathWeight, hd]
        linarith

theorem goodPath_cons_cons {adj : Adj} {z₀ z b : Nat} {rest : List Nat}
    (h : GoodPath adj z₀ z (z₀ :: b :: rest)) :
    (findEdge adj z₀ b).isSome ∧ GoodPath adj b z (b :: rest) := by
  obtain ⟨hh, hl, hc⟩ := h
  rw [List.chain'_cons] at hc
  exact ⟨hc.1, rfl, by rwa [List.getLast?_cons_cons] at hl, hc.2⟩

theorem goodPath_head {adj : Adj} {s e : Nat} {p : List Nat}
    (h : GoodPath adj s e p) : ∃ t, p = s :: t := by
  cases p with
  | nil => exact absurd h.1 (by simp)
  | cons a t =>
    have := h.1
    simp at this
    exact ⟨t, by rw [this]⟩

/-- Loop invariant of `dijkstra`: every queue entry records a genuine path
and its cost; `min_dist` of an unvisited node is witnessed by a queue entry
of exactly that cost; every unvisited queue entry is dominated by its
`min_dist`; every visited node's `min_dist` is optimal; every edge out of
the visited set is relaxed; and the initial start entry survives until the
start node is visited. -/
structure DInv (adj : Adj) (start : Nat) (queue : List Entry) (visited : List Nat)
    (minDist : List (Nat × ℚ)) : Prop where
  entries_valid : ∀ e ∈ queue,
    GoodPath adj start e.node (e.path ++ [e.node]) ∧
      pathWeight adj (e.path ++ [e.node]) = e.cost
  mindist_entry : ∀ v c, v ∉ visited → lookupA v minDist = some c →
    ∃ e ∈ queue, e.node = v ∧ e.cost = c
  entry_mindist : ∀ e ∈ queue, e.node ∉ visited →
    ∃ c, lookupA e.node minDist = some c ∧ c ≤ e.cost
  visited_opt : ∀ x ∈ visited, ∃ c, lookupA x minDist = some c ∧
    ∀ P, GoodPath adj start x P → c ≤ pathWeight adj P
  relaxed : ∀ x ∈ visited, ∀ v d, findEdge adj x v = some d → v ∉ visited →
    ∃ cv, lookupA v minDist = some cv ∧
      ∃ cx, lookupA x minDist = some cx ∧ cv ≤ cx + d.length
  start_entry : start ∉ visited → (⟨0, start, []⟩ : Entry) ∈ queue

/-- Walking an edge chain that leaves the visited set: some queue entry is
at most the accumulated weight.  `Q` is a path from `start` to the chain's
anchor `z₀`. -/
theorem frontier_aux {adj : Adj} {start : Nat} {queue : List Entry}
    {visited : List Nat} {minDist : List (Nat × ℚ)}
    (inv : DInv adj start queue visited minDist) (hnn : NonnegAdj adj) :
    ∀ P z₀ z, GoodPath adj z₀ z P → z₀ ∈ visited → (∃ y ∈ P, y ∉ visited) →
      ∀ Q, GoodPath adj start z₀ Q →
        ∃ e ∈ queue, e.node ∉ visited ∧ e.cost ≤ pathWeight adj Q + pathWeight adj P := by
  intro P
  induction P with
  | nil =>
    intro z₀ z hP _ hy _ _
    simp at hy
  | cons a rest ih =>
    intro z₀ z hP hz₀ hy Q hQ
    obtain ⟨t, ht⟩ := goodPath_head hP
    injection ht with ht1 ht2
    subst ht1
    subst ht2
    cases rest with
    | nil =>
      obtain ⟨y, hy1, hy2⟩ := hy
      simp at hy1
      subst hy1
      exact absurd hz₀ hy2
    | cons b rest' =>
      obtain ⟨hedge, hP'⟩ := goodPath_cons_cons hP
      obtain ⟨d, hd⟩ := Option.isSome_iff_exists.mp hedge
      by_cases hb : b ∈ visited
      · have hy' : ∃ y ∈ b :: rest', y ∉ visited := by
          obtain ⟨y, hy1, hy2⟩ := hy
          rcases List.mem_cons.mp hy1 with h | h
          · subst h; exact absurd hz₀ hy2
          · exact ⟨y, h, hy2⟩
        have hQ' : GoodPath adj start b (Q ++ [b]) := goodPath_append_edge hQ hd
        obtain ⟨e, he1, he2, he3⟩ := ih b z hP' hb hy' (Q ++ [b]) hQ'
        refine ⟨e, he1, he2, ?_⟩
        rw [pathWeight_append_edge (goodPath_ne_nil hQ) hQ.2.1 hd] at he3
        have hwr : 0 ≤ pathWeight adj (b :: rest') :=
          pathWeight_nonneg hnn hP'.2.2
        simp only [pathWeight, hd] at *
        linarith
      · obtain ⟨cv, hcv, cx, hcx, hle⟩ := inv.relaxed a hz₀ b d hd hb
        obtain ⟨e, he1, he2, he3⟩ := inv.mindist_entry b cv hb hcv
        refine ⟨e, he1, by rw [he2]; exact hb, ?_⟩
        obtain ⟨cx', hcx', hopt⟩ := inv.visited_opt a hz₀
        rw [hcx] at hcx'
        injection hcx' with hcc
        subst hcc
        have h1 : cx ≤ pathWeight adj Q := hopt Q hQ
        have h2 : 0 ≤ pathWeight adj (b :: rest') :=
          pathWeight_nonneg hnn hP'.2.2
        have h3 : 0 ≤ d.length := findEdge_nonneg hnn hd
        rw [he3]
        simp only [pathWeight, hd]
        linarith

/-- If some path reaches an unvisited node, the queue holds an entry whose
cost is at most that path's weight. -/
theorem frontier_entry {adj : Adj} {start : Nat} {queue : List Entry}
    {visited : List Nat} {minDist : List (Nat × ℚ)}
    (inv : DInv adj start queue visited minDist) (hnn : NonnegAdj adj)
    {z : Nat} {P : List Nat} (hP : GoodPath adj start z P) (hz : z ∉ visited) :
    ∃ e ∈ queue, e.node ∉ visited ∧ e.cost ≤ pathWeight adj P := by
  by_cases hs : start ∈ visited
  · have hy : ∃ y ∈ P, y ∉ visited := by
      refine ⟨z, ?_, hz⟩
      have h := hP.2.1
      obtain ⟨hne, hzl⟩ := List.mem_getLast?_eq_getLast (show z ∈ P.getLast? from h)
      rw [hzl]
      exact List.getLast_mem hne
    have := frontier_aux inv hnn P start z hP hs hy [start] (goodPath_singleton adj start)
    obtain ⟨e, he1, he2, he3⟩ := this
    refine ⟨e, he1, he2, ?_⟩
    simpa [pathWeight] using he3
  · refine ⟨⟨0, start, []⟩, inv.start_entry hs, hs, ?_⟩
    exact pathWeight_nonneg hnn hP.2.2

/-- Postcondition bundle of the relaxation loop. -/
structure RelaxPost (adj : Adj) (start : Nat) (visited : List Nat) (c : ℚ)
    (neighbors : List (Nat × EdgeData)) (q : List Entry) (md : List (Nat × ℚ))
    (r : List Entry × List (Nat × ℚ)) : Prop where
  valid : ∀ e ∈ r.1, GoodPath adj start e.node (e.path ++ [e.node]) ∧
    pathWeight adj (e.path ++ [e.node]) = e.cost
  md_entry : ∀ v cv, v ∉ visited → lookupA v r.2 = some cv →
    ∃ e ∈ r.1, e.node = v ∧ e.cost = cv
  entry_md : ∀ e ∈ r.1, e.node ∉ visited →
    ∃ cv, lookupA e.node r.2 = some cv ∧ cv ≤ e.cost
  mono : ∀ v cv, lookupA v md = some cv →
    ∃ cv', lookupA v r.2 = some cv' ∧ cv' ≤ cv
  frozen : ∀ v ∈ visited, lookupA v r.2 = lookupA v md
  covered : ∀ vd ∈ neighbors, vd.1 ∉ visited →
    ∃ cv, lookupA vd.1 r.2 = some cv ∧ cv ≤ c + vd.2.length
  grows : ∀ e ∈ q, e ∈ r.1
  size : r.1.length ≤ q.length + neighbors.length

/-- The relaxation loop preserves the queue/min-dist invariants, only
lowers recorded distances, leaves visited nodes untouched, and leaves every
processed unvisited neighbor with a recorded cost at most `c + weight`. -/
theorem relax_spec {adj : Adj} {start u : Nat} {c : ℚ} {path' : List Nat}
    {visited : List Nat}
    (hval : GoodPath adj start u path' ∧ pathWeight adj path' = c) :
    ∀ (neighbors : List (Nat × EdgeData)) (q : List Entry) (md : List (Nat × ℚ)),
      (∀ vd ∈ neighbors, findEdge adj u vd.1 = some vd.2) →
      (∀ e ∈ q, GoodPath adj start e.node (e.path ++ [e.node]) ∧
        pathWeight adj (e.path ++ [e.node]) = e.cost) →
      (∀ v cv, v ∉ visited → lookupA v md = some cv →
        ∃ e ∈ q, e.node = v ∧ e.cost = cv) →
      (∀ e ∈ q, e.node ∉ visited → ∃ cv, lookupA e.node md = some cv ∧ cv ≤ e.cost) →
      RelaxPost adj start visited c neighbors q md
        (relaxNeighbors visited c path' neighbors q md) := by
  intro neighbors
  induction neighbors with
  | nil =>
    intro q md _ hP1 hP2 hP3
    refine ⟨hP1, hP2, hP3, fun v cv h => ⟨cv, h, le_refl cv⟩, fun v _ => rfl,
      by simp, fun e he => he, by simp [relaxNeighbors]⟩
  | cons vd rest ih =>
    intro q md hNS hP1 hP2 hP3
    have hNSrest : ∀ v ∈ rest, findEdge adj u v.1 = some v.2 :=
      fun v hv => hNS v (List.mem_cons_of_mem _ hv)
    have hNShead : findEdge adj u vd.1 = some vd.2 := hNS vd (List.mem_cons_self _ _)
    by_cases hvis : vd.1 ∈ visited
    · -- neighbor already visited: skipped
      have heq : relaxNeighbors visited c path' (vd :: rest) q md =
          relaxNeighbors visited c path' rest q md := by
        simp [relaxNeighbors, hvis]
      rw [heq]
      have post := ih q md hNSrest hP1 hP2 hP3
      exact ⟨post.valid, post.md_entry, post.entry_md, post.mono, post.frozen,
        by
          intro w hw hwv
          rcases List.mem_cons.mp hw with h | h
          · subst h; exact absurd hvis hwv
          · exact post.covered w h hwv,
        post.grows,
        le_trans post.size (by simp)⟩
    · -- unvisited neighbor: three subcases on min_dist
      have hEvalid : GoodPath adj start vd.1 (path' ++ [vd.1]) ∧
          pathWeight adj (path' ++ [vd.1]) = c + vd.2.length := by
        constructor
        · exact goodPath_append_edge hval.1 hNShead
        · rw [pathWeight_append_edge (goodPath_ne_nil hval.1) hval.1.2.1 hNShead, hval.2]
      cases hmd : lookupA vd.1 md with
      | none =>
        have heq : relaxNeighbors visited c path' (vd :: rest) q md =
            relaxNeighbors visited c path' rest
              (q ++ [⟨c + vd.2.length, vd.1, path'⟩])
              (updateA vd.1 (c + vd.2.length) md) := by
          simp [relaxNeighbors, hvis, hmd]
        rw [heq]
        have hQ1 : ∀ e ∈ q ++ [⟨c + vd.2.length, vd.1, path'⟩],
            GoodPath adj start e.node (e.path ++ [e.node]) ∧
              pathWeight adj (e.path ++ [e.node]) = e.cost := by
          intro e he
          rcases List.mem_append.mp he with h | h
          · exact hP1 e h
          · simp at h
            subst h
            exact hEvalid
        have hQ2 : ∀ v cv, v ∉ visited →
            lookupA v (updateA vd.1 (c + vd.2.length) md) = some cv →
            ∃ e ∈ q ++ [⟨c + vd.2.length, vd.1, path'⟩], e.node = v ∧ e.cost = cv := by
          intro v cv hv hlook
          by_cases hveq : vd.1 = v
          · subst hveq
            rw [lookupA_updateA_self] at hlook
            injection hlook with hlook
            exact ⟨⟨c + vd.2.length, vd.1, path'⟩, by simp, rfl, hlook⟩
          · rw [lookupA_updateA_ne _ _ _ _ hveq] at hlook
            obtain ⟨e, he1, he2, he3⟩ := hP2 v cv hv hlook
            exact ⟨e, List.mem_append_left _ he1, he2, he3⟩
        have hQ3 : ∀ e ∈ q ++ [⟨c + vd.2.length, vd.1, path'⟩], e.node ∉ visited →
            ∃ cv, lookupA e.node (updateA vd.1 (c + vd.2.length) md) = some cv ∧
              cv ≤ e.cost := by
          intro e he hn
          rcases List.mem_append.mp he with h | h
          · obtain ⟨cv, hcv1, hcv2⟩ := hP3 e h hn
            by_cases hveq : vd.1 = e.node
            · rw [← hveq, hmd] at hcv1
              exact absurd hcv1 (by simp)
            · exact ⟨cv, by rwa [lookupA_updateA_ne _ _ _ _ hveq], hcv2⟩
          · simp at h
            subst h
            exact ⟨c + vd.2.length, lookupA_updateA_self _ _ _, le_refl _⟩
        have post := ih _ _ hNSrest hQ1 hQ2 hQ3
        refine ⟨post.valid, post.md_entry, post.entry_md, ?_, ?_, ?_, ?_, ?_⟩
        · intro v cv hlook
          have hveq : vd.1 ≠ v := by
            intro h
            rw [h] at hmd
            rw [hmd] at hlook
            exact absurd hlook (by simp)
          have : lookupA v (updateA vd.1 (c + vd.2.length) md) = some cv := by
            rwa [lookupA_updateA_ne _ _ _ _ hveq]
          exact post.mono v cv this
        · intro v hv
          have hveq : vd.1 ≠ v := fun h => hvis (h ▸ hv)
          rw [post.frozen v hv, lookupA_updateA_ne _ _ _ _ hveq]
        · intro w hw hwv
          rcases List.mem_cons.mp hw with h | h
          · subst h
            obtain ⟨cv', hcv1, hcv2⟩ := post.mono w.1 (c + w.2.length)
              (lookupA_updateA_self _ _ _)
            exact ⟨cv', hcv1, hcv2⟩
          · exact post.covered w h hwv
        · intro e he
          exact post.grows e (List.mem_append_left _ he)
        · have := post.size
          simp only [List.length_append, List.length_cons, List.length_nil] at *
          omega
      | some oldCost =>
        by_cases hlt : c + vd.2.length < oldCost
        · have heq : relaxNeighbors visited c path' (vd :: rest) q md =
              relaxNeighbors visited c path' rest
                (q ++ [⟨c + vd.2.length, vd.1, path'⟩])
                (updateA vd.1 (c + vd.2.length) md) := by
            simp [relaxNeighbors, hvis, hmd, hlt]
          rw [heq]
          have hQ1 : ∀ e ∈ q ++ [⟨c + vd.2.length, vd.1, path'⟩],
              GoodPath adj start e.node (e.path ++ [e.node]) ∧
                pathWeight adj (e.path ++ [e.node]) = e.cost := by
            intro e he
            rcases List.mem_append.mp he with h | h
            · exact hP1 e h
            · simp at h
              subst h
              exact hEvalid
          have hQ2 : ∀ v cv, v ∉ visited →
              lookupA v (updateA vd.1 (c + vd.2.length) md) = some cv →
              ∃ e ∈ q ++ [⟨c + vd.2.length, vd.1, path'⟩], e.node = v ∧ e.cost = cv := by
            intro v cv hv hlook
            by_cases hveq : vd.1 = v
            · subst hveq
              rw [lookupA_updateA_self] at hlook
              injection hlook with hlook
              exact ⟨⟨c + vd.2.length, vd.1, path'⟩, by simp, rfl, hlook⟩
            · rw [lookupA_updateA_ne _ _ _ _ hveq] at hlook
              obtain ⟨e, he1, he2, he3⟩ := hP2 v cv hv hlook
              exact ⟨e, List.mem_append_left _ he1, he2, he3⟩
          have hQ3 : ∀ e ∈ q ++ [⟨c + vd.2.length, vd.1, path'⟩], e.node ∉ visited →
              ∃ cv, lookupA e.node (updateA vd.1 (c + vd.2.length) md) = some cv ∧
                cv ≤ e.cost := by
            intro e he hn
            rcases List.mem_append.mp he with h | h
            · obtain ⟨cv, hcv1, hcv2⟩ := hP3 e h hn
              by_cases hveq : vd.1 = e.node
              · rw [← hveq, hmd] at hcv1
                injection hcv1 with hcv1
                subst hcv1
                refine ⟨c + vd.2.length, by rw [hveq]; exact lookupA_updateA_self _ _ _, ?_⟩
                exact le_trans (le_of_lt hlt) hcv2
              · exact ⟨cv, by rwa [lookupA_updateA_ne _ _ _ _ hveq], hcv2⟩
            · simp at h
              subst h
              exact ⟨c + vd.2.length, lookupA_updateA_self _ _ _, le_refl _⟩
          have post := ih _ _ hNSrest hQ1 hQ2 hQ3
          refine ⟨post.valid, post.md_entry, post.entry_md, ?_, ?_, ?_, ?_, ?_⟩
          · intro v cv hlook
            by_cases hveq : vd.1 = v
            · subst hveq
              rw [hmd] at hlook
              injection hlook with hlook
              subst hlook
              obtain ⟨cv', hcv1, hcv2⟩ := post.mono vd.1 (c + vd.2.length)
                (lookupA_updateA_self _ _ _)
              exact ⟨cv', hcv1, le_trans hcv2 (le_of_lt hlt)⟩
            · have : lookupA v (updateA vd.1 (c + vd.2.length) md) = some cv := by
                rwa [lookupA_updateA_ne _ _ _ _ hveq]
              exact post.mono v cv this
          · intro v hv
            have hveq : vd.1 ≠ v := fun h => hvis (h ▸ hv)
            rw [post.frozen v hv, lookupA_updateA_ne _ _ _ _ hveq]
          · intro w hw hwv
            rcases List.mem_cons.mp hw with h | h
            · subst h
              obtain ⟨cv', hcv1, hcv2⟩ := post.mono w.1 (c + w.2.length)
                (lookupA_updateA_self _ _ _)
              exact ⟨cv', hcv1, hcv2⟩
            · exact post.covered w h hwv
          · intro e he
            exact post.grows e (List.mem_append_left _ he)
          · have := post.size
            simp only [List.length_append, List.length_cons, List.length_nil] at *
            omega
        · -- no improvement: nothing happens for this neighbor
          have heq : relaxNeighbors visited c path' (vd :: rest) q md =
              relaxNeighbors visited c path' rest q md := by
            simp [relaxNeighbors, hvis, hmd, hlt]
          rw [heq]
          have post := ih q md hNSrest hP1 hP2 hP3
          refine ⟨post.valid, post.md_entry, post.entry_md, post.mono, post.frozen,
            ?_, post.grows, le_trans post.size (by simp)⟩
          intro w hw hwv
          rcases List.mem_cons.mp hw with h | h
          · subst h
            obtain ⟨cv', hcv1, hcv2⟩ := post.mono w.1 oldCost hmd
            exact ⟨cv', hcv1, le_trans hcv2 (le_of_not_lt hlt)⟩
          · exact post.covered w h hwv

theorem dinv_initial (adj : Adj) (s : Nat) :
    DInv adj s [⟨0, s, []⟩] [] [(s, 0)] := by
  refine ⟨?_, ?_, ?_, ?_, ?_, ?_⟩
  · intro e he
    simp at he
    subst he
    exact ⟨goodPath_singleton adj s, rfl⟩
  · intro v c _ hlook
    simp [lookupA] at hlook
    obtain ⟨hv, hc⟩ := hlook
    subst hv
    exact ⟨⟨0, s, []⟩, by simp, rfl, hc⟩
  · intro e he _
    simp at he
    subst he
    exact ⟨0, by simp [lookupA], le_refl 0⟩
  · intro x hx
    simp at hx
  · intro x hx
    simp at hx
  · intro _
    simp

theorem dinv_skip {adj : Adj} {start : Nat} {queue queue' : List Entry}
    {visited : List Nat} {minDist : List (Nat × ℚ)} {e : Entry}
    (inv : DInv adj start queue visited minDist)
    (hpop : popMin queue = some (e, queue')) (hv : e.node ∈ visited) :
    DInv adj start queue' visited minDist := by
  have hperm := popMin_perm hpop
  refine ⟨?_, ?_, ?_, inv.visited_opt, inv.relaxed, ?_⟩
  · intro e' he'
    exact inv.entries_valid e' (hperm.mem_iff.mpr (List.mem_cons_of_mem _ he'))
  · intro v c hvn hlook
    obtain ⟨e', he1, he2, he3⟩ := inv.mindist_entry v c hvn hlook
    have : e' ∈ e :: queue' := hperm.mem_iff.mp he1
    rcases List.mem_cons.mp this with h | h
    · subst h
      rw [he2] at hv
      exact absurd hv hvn
    · exact ⟨e', h, he2, he3⟩
  · intro e' he' hn
    exact inv.entry_mindist e' (hperm.mem_iff.mpr (List.mem_cons_of_mem _ he')) hn
  · intro hs
    have := inv.start_entry hs
    have hmem : (⟨0, start, []⟩ : Entry) ∈ e :: queue' := hperm.mem_iff.mp this
    rcases List.mem_cons.mp hmem with h | h
    · rw [← h] at hv
      exact absurd hv hs
    · exact h

/-- Facts available when an unvisited node is popped: its recorded distance
equals the popped cost, and that cost is optimal among all paths to it. -/
theorem pop_facts {adj : Adj} {start : Nat} {queue queue' : List Entry}
    {visited : List Nat} {minDist : List (Nat × ℚ)} {e : Entry}
    (inv : DInv adj start queue visited minDist) (hnn : NonnegAdj adj)
    (hpop : popMin queue = some (e, queue')) (hnv : e.node ∉ visited) :
    lookupA e.node minDist = some e.cost ∧
      (∀ P, GoodPath adj start e.node P → e.cost ≤ pathWeight adj P) := by
  have hperm := popMin_perm hpop
  have hmem : e ∈ queue := hperm.mem_iff.mpr (List.mem_cons_self _ _)
  obtain ⟨c₀, hc₀, hc₀le⟩ := inv.entry_mindist e hmem hnv
  obtain ⟨e₀, he₀1, he₀2, he₀3⟩ := inv.mindist_entry e.node c₀ hnv hc₀
  have h1 : e.cost ≤ c₀ := he₀3 ▸ popMin_min hpop e₀ he₀1
  have hceq : c₀ = e.cost := le_antisymm hc₀le h1
  subst hceq
  refine ⟨hc₀, ?_⟩
  intro P hP
  obtain ⟨e', he'1, _, he'3⟩ := frontier_entry inv hnn hP hnv
  exact le_trans (popMin_min hpop e' he'1) he'3

theorem dinv_visit_adj {adj : Adj} {start : Nat} {queue queue' : List Entry}
    {visited : List Nat} {minDist : List (Nat × ℚ)} {e : Entry}
    {ns : List (Nat × EdgeData)}
    (inv : DInv adj start queue visited minDist) (hnn : NonnegAdj adj)
    (hwf : WFAdj adj)
    (hpop : popMin queue = some (e, queue')) (hnv : e.node ∉ visited)
    (hns : lookupA e.node adj = some ns) :
    DInv adj start
      (relaxNeighbors (e.node :: visited) e.cost (e.path ++ [e.node]) ns queue' minDist).1
      (e.node :: visited)
      (relaxNeighbors (e.node :: visited) e.cost (e.path ++ [e.node]) ns queue' minDist).2 := by
  have hperm := popMin_perm hpop
  have hmem : e ∈ queue := hperm.mem_iff.mpr (List.mem_cons_self _ _)
  have hval := inv.entries_valid e hmem
  obtain ⟨hmdu, hopt⟩ := pop_facts inv hnn hpop hnv
  have hNS : ∀ vd ∈ ns, findEdge adj e.node vd.1 = some vd.2 := by
    intro vd hvd
    unfold findEdge
    rw [hns]
    exact lookupA_of_mem_nodup (hwf (e.node, ns) (lookupA_mem hns)) (by
      obtain ⟨v1, v2⟩ := vd
      exact hvd)
  have hP1 : ∀ e' ∈ queue', GoodPath adj start e'.node (e'.path ++ [e'.node]) ∧
      pathWeight adj (e'.path ++ [e'.node]) = e'.cost :=
    fun e' he' => inv.entries_valid e' (hperm.mem_iff.mpr (List.mem_cons_of_mem _ he'))
  have hP2 : ∀ v cv, v ∉ e.node :: visited → lookupA v minDist = some cv →
      ∃ e' ∈ queue', e'.node = v ∧ e'.cost = cv := by
    intro v cv hv hlook
    have hvn : v ∉ visited := fun h => hv (List.mem_cons_of_mem _ h)
    have hvne : v ≠ e.node := fun h => hv (h ▸ List.mem_cons_self _ _)
    obtain ⟨e', he1, he2, he3⟩ := inv.mindist_entry v cv hvn hlook
    rcases List.mem_cons.mp (hperm.mem_iff.mp he1) with h | h
    · subst h
      exact absurd he2.symm hvne
    · exact ⟨e', h, he2, he3⟩
  have hP3 : ∀ e' ∈ queue', e'.node ∉ e.node :: visited →
      ∃ cv, lookupA e'.node minDist = some cv ∧ cv ≤ e'.cost := by
    intro e' he' hn
    exact inv.entry_mindist e' (hperm.mem_iff.mpr (List.mem_cons_of_mem _ he'))
      (fun h => hn (List.mem_cons_of_mem _ h))
  have post := relax_spec ⟨hval.1, hval.2⟩ ns queue' minDist hNS hP1 hP2 hP3
  refine ⟨post.valid, post.md_entry, post.entry_md, ?_, ?_, ?_⟩
  · -- visited_opt
    intro x hx
    rcases List.mem_cons.mp hx with h | h
    · subst h
      refine ⟨e.cost, ?_, hopt⟩
      rw [post.frozen _ hx, hmdu]
    · obtain ⟨cx, hcx1, hcx2⟩ := inv.visited_opt x h
      exact ⟨cx, by rw [post.frozen x hx, hcx1], hcx2⟩
  · -- relaxed
    intro x hx v d hedge hvn
    have hvn' : v ∉ visited := fun h => hvn (List.mem_cons_of_mem _ h)
    rcases List.mem_cons.mp hx with h | h
    · subst h
      have hvd : (v, d) ∈ ns := by
        unfold findEdge at hedge
        rw [hns] at hedge
        exact lookupA_mem hedge
      obtain ⟨cv, hcv1, hcv2⟩ := post.covered (v, d) hvd hvn
      refine ⟨cv, hcv1, e.cost, ?_, hcv2⟩
      rw [post.frozen _ hx, hmdu]
    · obtain ⟨cv, hcv1, cx, hcx1, hle⟩ := inv.relaxed x h v d hedge hvn'
      obtain ⟨cv', hcv'1, hcv'2⟩ := post.mono v cv hcv1
      refine ⟨cv', hcv'1, cx, ?_, le_trans hcv'2 hle⟩
      rw [post.frozen x hx, hcx1]
  · -- start_entry
    intro hs
    have hs1 : start ∉ visited := fun h => hs (List.mem_cons_of_mem _ h)
    have hs2 : start ≠ e.node := fun h => hs (h ▸ List.mem_cons_self _ _)
    have hmem0 := inv.start_entry hs1
    rcases List.mem_cons.mp (hperm.mem_iff.mp hmem0) with h | h
    · exact absurd (congrArg Entry.node h) (by simpa using hs2)
    · exact post.grows _ h

theorem dinv_visit_noadj {adj : Adj} {start : Nat} {queue queue' : List Entry}
    {visited : List Nat} {minDist : List (Nat × ℚ)} {e : Entry}
    (inv : DInv adj start queue visited minDist) (hnn : NonnegAdj adj)
    (hpop : popMin queue = some (e, queue')) (hnv : e.node ∉ visited)
    (hns : lookupA e.node adj = none) :
    DInv adj start queue' (e.node :: visited) minDist := by
  have hperm := popMin_perm hpop
  obtain ⟨hmdu, hopt⟩ := pop_facts inv hnn hpop hnv
  refine ⟨?_, ?_, ?_, ?_, ?_, ?_⟩
  · intro e' he'
    exact inv.entries_valid e' (hperm.mem_iff.mpr (List.mem_cons_of_mem _ he'))
  · intro v cv hv hlook
    have hvn : v ∉ visited := fun h => hv (List.mem_cons_of_mem _ h)
    have hvne : v ≠ e.node := fun h => hv (h ▸ List.mem_cons_self _ _)
    obtain ⟨e', he1, he2, he3⟩ := inv.mindist_entry v cv hvn hlook
    rcases List.mem_cons.mp (hperm.mem_iff.mp he1) with h | h
    · subst h
      exact absurd he2.symm hvne
    · exact ⟨e', h, he2, he3⟩
  · intro e' he' hn
    exact inv.entry_mindist e' (hperm.mem_iff.mpr (List.mem_cons_of_mem _ he'))
      (fun h => hn (List.mem_cons_of_mem _ h))
  · intro x hx
    rcases List.mem_cons.mp hx with h | h
    · subst h
      exact ⟨e.cost, hmdu, hopt⟩
    · exact inv.visited_opt x h
  · intro x hx v d hedge hvn
    have hvn' : v ∉ visited := fun h => hvn (List.mem_cons_of_mem _ h)
    rcases List.mem_cons.mp hx with h | h
    · subst h
      unfold findEdge at hedge
      rw [hns] at hedge
      exact absurd hedge (by simp)
    · exact inv.relaxed x h v d hedge hvn'
  · intro hs
    have hs1 : start ∉ visited := fun h => hs (List.mem_cons_of_mem _ h)
    have hs2 : start ≠ e.node := fun h => hs (h ▸ List.mem_cons_self _ _)
    have hmem0 := inv.start_entry hs1
    rcases List.mem_cons.mp (hperm.mem_iff.mp hmem0) with h | h
    · exact absurd (congrArg Entry.node h) (by simpa using hs2)
    · exact h

theorem dijkstraLoop_sound {adj : Adj} {start endJ : Nat}
    (hnn : NonnegAdj adj) (hwf : WFAdj adj) :
    ∀ (fuel : Nat) (queue : List Entry) (visited : List Nat) (minDist : List (Nat × ℚ)),
      DInv adj start queue visited minDist →
      dijkstraLoop adj endJ fuel queue visited minDist ≠ [] →
      GoodPath adj start endJ (dijkstraLoop adj endJ fuel queue visited minDist) ∧
        ∀ Q, GoodPath adj start endJ Q →
          pathWeight adj (dijkstraLoop adj endJ fuel queue visited minDist) ≤ pathWeight adj Q := by
  intro fuel
  induction fuel with
  | zero =>
    intro queue visited minDist _ hne
    simp [dijkstraLoop] at hne
  | succ fuel ih =>
    intro queue visited minDist inv hne
    cases hpop : popMin queue with
    | none =>
      rw [dijkstraLoop, hpop] at hne
      simp at hne
    | some p =>
      obtain ⟨e, queue'⟩ := p
      by_cases hv : e.node ∈ visited
      · have heq : dijkstraLoop adj endJ (fuel+1) queue visited minDist =
            dijkstraLoop adj endJ fuel queue' visited minDist := by
          rw [dijkstraLoop, hpop]
          simp [hv]
        rw [heq] at hne ⊢
        exact ih queue' visited minDist (dinv_skip inv hpop hv) hne
      · by_cases hend : e.node = endJ
        · have heq : dijkstraLoop adj endJ (fuel+1) queue visited minDist =
              e.path ++ [e.node] := by
            have hv' : endJ ∉ visited := by rw [← hend]; exact hv
            rw [dijkstraLoop, hpop]
            simp [hv', hend]
          rw [heq]
          have hval := inv.entries_valid e
            ((popMin_perm hpop).mem_iff.mpr (List.mem_cons_self _ _))
          obtain ⟨_, hopt⟩ := pop_facts inv hnn hpop hv
          constructor
          · rw [← hend]
            exact hval.1
          · intro Q hQ
            have hQ' : GoodPath adj start e.node Q := by rw [hend]; exact hQ
            rw [hval.2]
            exact hopt Q hQ'
        · cases hns : lookupA e.node adj with
          | none =>
            have heq : dijkstraLoop adj endJ (fuel+1) queue visited minDist =
                dijkstraLoop adj endJ fuel queue' (e.node :: visited) minDist := by
              rw [dijkstraLoop, hpop]
              simp [hv, hend, hns]
            rw [heq] at hne ⊢
            exact ih _ _ _ (dinv_visit_noadj inv hnn hpop hv hns) hne
          | some ns =>
            have heq : dijkstraLoop adj endJ (fuel+1) queue visited minDist =
                dijkstraLoop adj endJ fuel
                  (relaxNeighbors (e.node :: visited) e.cost (e.path ++ [e.node]) ns queue' minDist).1
                  (e.node :: visited)
                  (relaxNeighbors (e.node :: visited) e.cost (e.path ++ [e.node]) ns queue' minDist).2 := by
              rw [dijkstraLoop, hpop]
              simp [hv, hend, hns]
            rw [heq] at hne ⊢
            exact ih _ _ _ (dinv_visit_adj inv hnn hwf hpop hv hns) hne

/-- Total length of neighbor lists of not-yet-visited nodes; together with
the queue length this bounds the remaining loop iterations. -/
def unvisitedSize (adj : Adj) (visited : List Nat) : Nat :=
  (adj.map (fun p => if p.1 ∈ visited then 0 else p.2.length)).sum

theorem unvisitedSize_mono (adj : Adj) (u : Nat) (visited : List Nat) :
    unvisitedSize adj (u :: visited) ≤ unvisitedSize adj visited := by
  induction adj with
  | nil => simp [unvisitedSize]
  | cons p t ih =>
    simp only [unvisitedSize, List.map_cons, List.sum_cons] at *
    have : (if p.1 ∈ u :: visited then 0 else p.2.length) ≤
        (if p.1 ∈ visited then 0 else p.2.length) := by
      by_cases h : p.1 ∈ visited
      · simp [h, List.mem_cons_of_mem]
      · by_cases h' : p.1 ∈ u :: visited <;> simp [h, h']
    omega

theorem unvisitedSize_visit {adj : Adj} {u : Nat} {ns : List (Nat × EdgeData)}
    {visited : List Nat} (hlook : lookupA u adj = some ns) (hu : u ∉ visited) :
    unvisitedSize adj (u :: visited) + ns.length ≤ unvisitedSize adj visited := by
  induction adj with
  | nil => simp [lookupA] at hlook
  | cons p t ih =>
    obtain ⟨k, l⟩ := p
    by_cases hk : k = u
    · subst hk
      simp only [lookupA, if_pos rfl] at hlook
      injection hlook with hlook
      subst hlook
      simp only [unvisitedSize, List.map_cons, List.sum_cons]
      have h1 : (if k ∈ k :: visited then 0 else l.length) = 0 := by simp
      have h2 : (if k ∈ visited then 0 else l.length) = l.length := by simp [hu]
      rw [h1, h2]
      have := unvisitedSize_mono t k visited
      unfold unvisitedSize at this
      omega
    · simp only [lookupA, if_neg hk] at hlook
      have := ih hlook
      simp only [unvisitedSize, List.map_cons, List.sum_cons] at *
      have hsame : (if k ∈ u :: visited then 0 else l.length) =
          (if k ∈ visited then 0 else l.length) := by
        by_cases h : k ∈ visited
        · simp [h, List.mem_cons_of_mem]
        · have : k ∉ u :: visited := by
            intro hmem
            rcases List.mem_cons.mp hmem with h' | h'
            · exact hk h'
            · exact h h'
          simp [h, this]
      omega

theorem dijkstraLoop_complete {adj : Adj} {start endJ : Nat}
    (hnn : NonnegAdj adj) (hwf : WFAdj adj) :
    ∀ (fuel : Nat) (queue : List Entry) (visited : List Nat) (minDist : List (Nat × ℚ)),
      DInv adj start queue visited minDist →
      endJ ∉ visited →
      (∃ P, GoodPath adj start endJ P) →
      queue.length + unvisitedSize adj visited ≤ fuel →
      dijkstraLoop adj endJ fuel queue visited minDist ≠ [] := by
  intro fuel
  induction fuel with
  | zero =>
    intro queue visited minDist inv hev hreach hfuel
    obtain ⟨P, hP⟩ := hreach
    obtain ⟨e', he1, _, _⟩ := frontier_entry inv hnn hP hev
    have : queue ≠ [] := fun h => by simp [h] at he1
    have : 1 ≤ queue.length := List.length_pos.mpr this
    omega
  | succ fuel ih =>
    intro queue visited minDist inv hev hreach hfuel
    obtain ⟨P, hP⟩ := hreach
    cases hpop : popMin queue with
    | none =>
      obtain ⟨e', he1, _, _⟩ := frontier_entry inv hnn hP hev
      rw [popMin_eq_none.mp hpop] at he1
      simp at he1
    | some p =>
      obtain ⟨e, queue'⟩ := p
      have hlen : queue.length = queue'.length + 1 := by
        have := (popMin_perm hpop).length_eq
        simpa using this
      by_cases hv : e.node ∈ visited
      · have heq : dijkstraLoop adj endJ (fuel+1) queue visited minDist =
            dijkstraLoop adj endJ fuel queue' visited minDist := by
          rw [dijkstraLoop, hpop]
          simp [hv]
        rw [heq]
        exact ih queue' visited minDist (dinv_skip inv hpop hv) hev ⟨P, hP⟩ (by omega)
      · by_cases hend : e.node = endJ
        · have heq : dijkstraLoop adj endJ (fuel+1) queue visited minDist =
              e.path ++ [e.node] := by
            have hv' : endJ ∉ visited := by rw [← hend]; exact hv
            rw [dijkstraLoop, hpop]
            simp [hv', hend]
          rw [heq]
          simp
        · cases hns : lookupA e.node adj with
          | none =>
            have heq : dijkstraLoop adj endJ (fuel+1) queue visited minDist =
                dijkstraLoop adj endJ fuel queue' (e.node :: visited) minDist := by
              rw [dijkstraLoop, hpop]
              simp [hv, hend, hns]
            rw [heq]
            have hev' : endJ ∉ e.node :: visited := by
              intro h
              rcases List.mem_cons.mp h with h' | h'
              · exact hend h'.symm
              · exact hev h'
            have hsz := unvisitedSize_mono adj e.node visited
            exact ih _ _ _ (dinv_visit_noadj inv hnn hpop hv hns) hev' ⟨P, hP⟩ (by omega)
          | some ns =>
            have heq : dijkstraLoop adj endJ (fuel+1) queue visited minDist =
                dijkstraLoop adj endJ fuel
                  (relaxNeighbors (e.node :: visited) e.cost (e.path ++ [e.node]) ns queue' minDist).1
                  (e.node :: visited)
                  (relaxNeighbors (e.node :: visited) e.cost (e.path ++ [e.node]) ns queue' minDist).2 := by
              rw [dijkstraLoop, hpop]
              simp [hv, hend, hns]
            rw [heq]
            have hev' : endJ ∉ e.node :: visited := by
              intro h
              rcases List.mem_cons.mp h with h' | h'
              · exact hend h'.symm
              · exact hev h'
            have hperm := popMin_perm hpop
            have hmem : e ∈ queue := hperm.mem_iff.mpr (List.mem_cons_self _ _)
            have hval := inv.entries_valid e hmem
            have hNS : ∀ vd ∈ ns, findEdge adj e.node vd.1 = some vd.2 := by
              intro vd hvd
              unfold findEdge
              rw [hns]
              exact lookupA_of_mem_nodup (hwf (e.node, ns) (lookupA_mem hns)) (by
                obtain ⟨v1, v2⟩ := vd
                exact hvd)
            have hP1 : ∀ e' ∈ queue', GoodPath adj start e'.node (e'.path ++ [e'.node]) ∧
                pathWeight adj (e'.path ++ [e'.node]) = e'.cost :=
              fun e' he' => inv.entries_valid e' (hperm.mem_iff.mpr (List.mem_cons_of_mem _ he'))
            have hP2 : ∀ v cv, v ∉ e.node :: visited → lookupA v minDist = some cv →
                ∃ e' ∈ queue', e'.node = v ∧ e'.cost = cv := by
              intro v cv hvv hlook
              have hvn : v ∉ visited := fun h => hvv (List.mem_cons_of_mem _ h)
              have hvne : v ≠ e.node := fun h => hvv (h ▸ List.mem_cons_self _ _)
              obtain ⟨e', he1, he2, he3⟩ := inv.mindist_entry v cv hvn hlook
              rcases List.mem_cons.mp (hperm.mem_iff.mp he1) with h | h
              · subst h
                exact absurd he2.symm hvne
              · exact ⟨e', h, he2, he3⟩
            have hP3 : ∀ e' ∈ queue', e'.node ∉ e.node :: visited →
                ∃ cv, lookupA e'.node minDist = some cv ∧ cv ≤ e'.cost := by
              intro e' he' hn
              exact inv.entry_mindist e' (hperm.mem_iff.mpr (List.mem_cons_of_mem _ he'))
                (fun h => hn (List.mem_cons_of_mem _ h))
            have post := relax_spec ⟨hval.1, hval.2⟩ ns queue' minDist hNS hP1 hP2 hP3
            have hsz := unvisitedSize_visit hns hv
            have hqsz := post.size
            exact ih _ _ _ (dinv_visit_adj inv hnn hwf hpop hv hns) hev' ⟨P, hP⟩ (by omega)

theorem graphSize_eq_unvisitedSize_nil (adj : Adj) :
    unvisitedSize adj [] = graphSize adj := by
  simp [unvisitedSize, graphSize]

/-- Full correctness of the embedded `dijkstra` on well-formed graphs with
nonnegative weights: whenever some path connects `s` to `e`, it returns a
path from `s` to `e` of minimal total weight. -/
theorem dijkstra_correct {adj : Adj} (hnn : NonnegAdj adj) (hwf : WFAdj adj)
    (s e : Nat) (hreach : ∃ P, GoodPath adj s e P) :
    GoodPath adj s e (dijkstra adj s e) ∧
      ∀ Q, GoodPath adj s e Q →
        pathWeight adj (dijkstra adj s e) ≤ pathWeight adj Q := by
  have hinv := dinv_initial adj s
  have hmeas : ([⟨0, s, []⟩] : List Entry).length + unvisitedSize adj [] ≤ graphSize adj + 1 := by
    rw [graphSize_eq_unvisitedSize_nil]
    simp
    omega
  have hne := dijkstraLoop_complete hnn hwf (graphSize adj + 1) [⟨0, s, []⟩] [] [(s, 0)]
    hinv (by simp) hreach hmeas
  exact dijkstraLoop_sound hnn hwf (graphSize adj + 1) [⟨0, s, []⟩] [] [(s, 0)] hinv hne

/-- Well-formedness bundle of an adjacency structure: nonnegative weights
and duplicate-free neighbor keys. -/
def AdjOK (adj : Adj) : Prop := NonnegAdj adj ∧ WFAdj adj

theorem adjOK_nil : AdjOK [] := ⟨fun p hp => absurd hp (by simp), fun p hp => absurd hp (by simp)⟩

theorem adjOK_updateA {adj : Adj} {k : Nat} {ns : List (Nat × EdgeData)}
    (h : AdjOK adj) (hn : ∀ q ∈ ns, 0 ≤ q.2.length) (hd : (ns.map Prod.fst).Nodup) :
    AdjOK (updateA k ns adj) := by
  constructor
  · intro p hp
    rcases updateA_mem hp with h' | h'
    · exact h.1 p h'
    · rw [h']
      exact hn
  · intro p hp
    rcases updateA_mem hp with h' | h'
    · exact h.2 p h'
    · rw [h']
      exact hd

theorem adjOK_append_empty {adj : Adj} {k : Nat} (h : AdjOK adj) :
    AdjOK (adj ++ [(k, [])]) := by
  constructor
  · intro p hp
    rcases List.mem_append.mp hp with h' | h'
    · exact h.1 p h'
    · simp at h'
      rw [h']
      simp
  · intro p hp
    rcases List.mem_append.mp hp with h' | h'
    · exact h.2 p h'
    · simp at h'
      rw [h']
      simp

theorem addRoadConnection_ok {adj adj' : Adj} {jf jt : Nat} {rid : ℤ} {w : ℚ}
    (h : AdjOK adj) (hw : 0 ≤ w)
    (heq : addRoadConnection adj jf jt rid w = some adj') : AdjOK adj' := by
  unfold addRoadConnection at heq
  cases hnf : lookupA jf adj with
  | none => rw [hnf] at heq; exact absurd heq (by simp)
  | some nf =>
    rw [hnf] at heq
    simp only [Option.bind_eq_bind, Option.some_bind] at heq
    have hnf_mem := lookupA_mem hnf
    have hok1 : AdjOK (updateA jf (updateA jt ⟨rid, w⟩ nf) adj) := by
      refine adjOK_updateA h ?_ (updateA_keys_nodup (h.2 _ hnf_mem))
      intro q hq
      rcases updateA_mem hq with h' | h'
      · exact h.1 _ hnf_mem q h'
      · rw [h']
        exact hw
    cases hnt : lookupA jt (updateA jf (updateA jt ⟨rid, w⟩ nf) adj) with
    | none => rw [hnt] at heq; exact absurd heq (by simp)
    | some nt =>
      rw [hnt] at heq
      simp only [Option.some_bind, Option.pure_def, Option.some.injEq] at heq
      subst heq
      have hnt_mem := lookupA_mem hnt
      refine adjOK_updateA hok1 ?_ (updateA_keys_nodup (hok1.2 _ hnt_mem))
      intro q hq
      rcases updateA_mem hq with h' | h'
      · exact hok1.1 _ hnt_mem q h'
      · rw [h']
        exact hw

theorem connectAdjacent_ok {rid : ℤ} :
    ∀ {jps : List (Nat × ℚ)} {adj adj' : Adj}, AdjOK adj →
      connectAdjacent rid jps adj = some adj' → AdjOK adj' := by
  intro jps
  induction jps with
  | nil =>
    intro adj adj' h heq
    simp [connectAdjacent] at heq
    rwa [← heq]
  | cons a rest ih =>
    intro adj adj' h heq
    cases rest with
    | nil =>
      simp [connectAdjacent] at heq
      rwa [← heq]
    | cons b rest' =>
      simp only [connectAdjacent, Option.bind_eq_bind] at heq
      cases hstep : addRoadConnection adj a.1 b.1 rid |b.2 - a.2| with
      | none => rw [hstep] at heq; exact absurd heq (by simp)
      | some adj1 =>
        rw [hstep] at heq
        simp only [Option.some_bind] at heq
        exact ih (addRoadConnection_ok h (abs_nonneg _) hstep) heq

theorem foldl_nonneg_aux (f : Pt × Pt → ℚ) (hf : ∀ pq, 0 ≤ f pq) :
    ∀ (l : List (Pt × Pt)) (init : ℚ), 0 ≤ init →
      0 ≤ l.foldl (fun acc pq => acc + f pq) init := by
  intro l
  induction l with
  | nil => intro init h; simpa using h
  | cons pq t ih =>
    intro init h
    simp only [List.foldl_cons]
    exact ih _ (by have := hf pq; linarith)

theorem pathLength_nonneg (pts : List Pt) : 0 ≤ pathLength pts :=
  foldl_nonneg_aux _ (fun pq => Vector3.distance_nonneg pq.1 pq.2) _ 0 (le_refl 0)

theorem buildRoadsRaw_nonneg {roads : List RoadIn} :
    ∀ p ∈ buildRoadsRaw roads, 0 ≤ (p.2 : Road).length := by
  unfold buildRoadsRaw
  have haux : ∀ (l : List RoadIn) (init : List (ℤ × Road)),
      (∀ p ∈ init, 0 ≤ (p.2 : Road).length) →
      ∀ p ∈ l.foldl
        (fun m r => updateA r.road_id ⟨r.road_id, r.path, pathLength r.path⟩ m) init,
        0 ≤ (p.2 : Road).length := by
    intro l
    induction l with
    | nil => intro init h p hp; exact h p hp
    | cons r t ih =>
      intro init h p hp
      refine ih _ ?_ p hp
      intro q hq
      rcases updateA_mem hq with h' | h'
      · exact h q h'
      · rw [h']
        exact pathLength_nonneg r.path
  intro p hp
  exact haux roads [] (by simp) p hp

theorem buildNodes_ok (junctions : List Junction) : AdjOK (buildNodes junctions).1 := by
  unfold buildNodes
  have haux : ∀ (l : List (Nat × Junction)) (init : Adj × List (Nat × Pt)), AdjOK init.1 →
      AdjOK (l.foldl (fun g p =>
        ((if (lookupA p.1 g.1).isSome then g.1 else g.1 ++ [(p.1, [])]),
          updateA p.1 p.2.location g.2)) init).1 := by
    intro l
    induction l with
    | nil => intro init h; exact h
    | cons p t ih =>
      intro init h
      simp only [List.foldl_cons]
      refine ih _ ?_
      by_cases hl : (lookupA p.1 init.1).isSome
      · simpa [hl] using h
      · simp only [hl, if_false]
        exact adjOK_append_empty h
  exact haux junctions.enum ([], []) adjOK_nil

theorem loadEdgeStep_ok {roadsRaw : List (ℤ × Road)} {junctions : List Junction}
    {adj adj' : Adj} {p : ℤ × List Nat}
    (hrr : ∀ q ∈ roadsRaw, 0 ≤ (q.2 : Road).length)
    (h : AdjOK adj) (heq : loadEdgeStep roadsRaw junctions adj p = some adj') :
    AdjOK adj' := by
  unfold loadEdgeStep at heq
  rcases p with ⟨rid, js⟩
  match js with
  | [j0, j1] =>
    simp only [Option.bind_eq_bind] at heq
    cases hrd : lookupA rid roadsRaw with
    | none => rw [hrd] at heq; exact absurd heq (by simp)
    | some rd =>
      rw [hrd] at heq
      simp only [Option.some_bind] at heq
      exact addRoadConnection_ok h (hrr _ (lookupA_mem hrd)) heq
  | [] =>
    simp at heq
    rwa [← heq]
  | [j0] =>
    simp at heq
    rwa [← heq]
  | j0 :: j1 :: j2 :: rest =>
    simp only [Option.bind_eq_bind] at heq
    have hlen : 2 < (j0 :: j1 :: j2 :: rest).length := by
      simp only [List.length_cons]
      omega
    rw [if_pos hlen] at heq
    obtain ⟨rd, hrd, heq2⟩ := Option.bind_eq_some.mp heq
    obtain ⟨jps, hjps, heq3⟩ := Option.bind_eq_some.mp heq2
    exact connectAdjacent_ok h heq3

theorem foldlM_option_inv {α β : Type} (P : β → Prop) (f : β → α → Option β) :
    ∀ (l : List α) (b b' : β),
      (∀ x y, P x → ∀ a, f x a = some y → P y) →
      P b → l.foldlM f b = some b' → P b' := by
  intro l
  induction l with
  | nil =>
    intro b b' _ hb heq
    simp [List.foldlM] at heq
    rwa [← heq]
  | cons a t ih =>
    intro b b' hstep hb heq
    simp only [List.foldlM_cons, Option.bind_eq_bind] at heq
    cases hfa : f b a with
    | none => rw [hfa] at heq; exact absurd heq (by simp)
    | some b1 =>
      rw [hfa] at heq
      simp only [Option.some_bind] at heq
      exact ih b1 b' hstep (hstep b b1 hb a hfa) heq

/-- Every graph built by the loader has nonnegative edge weights and
duplicate-free neighbor dictionaries. -/
theorem loadMapData_adjOK {d : MapData} {lm : NavState}
    (h : loadMapData d = some lm) : AdjOK lm.adjacency := by
  unfold loadMapData at h
  simp only [Option.bind_eq_bind] at h
  cases hfold : (buildRoadToJunctions d.junctions).foldlM
      (loadEdgeStep (buildRoadsRaw d.roads) d.junctions) (buildNodes d.junctions).1 with
  | none => rw [hfold] at h; exact absurd h (by simp)
  | some adj =>
    rw [hfold] at h
    simp only [Option.some_bind, Option.pure_def, Option.some.injEq] at h
    have hok := foldlM_option_inv AdjOK (loadEdgeStep (buildRoadsRaw d.roads) d.junctions)
      (buildRoadToJunctions d.junctions) (buildNodes d.junctions).1 adj
      (fun x y hx a hxa => loadEdgeStep_ok buildRoadsRaw_nonneg hx hxa)
      (buildNodes_ok d.junctions) hfold
    rw [← h]
    exact hok

/-- C1: for every graph built by the loader and every pair of junctions
start/end connected by some path, `dijkstra(start, end)` returns a list of
junction indices beginning at start and ending at end whose total edge
weight (sum of the `length` of each consecutive adjacency edge) is at most
the total weight of every other path between the same two junctions. -/
theorem claim_C1 (d : MapData) (lm : NavState) (s e : Nat)
    (hload : loadMapData d = some lm)
    (hconn : ∃ P, GoodPath lm.adjacency s e P) :
    GoodPath lm.adjacency s e (dijkstra lm.adjacency s e) ∧
      ∀ Q, GoodPath lm.adjacency s e Q →
        pathWeight lm.adjacency (dijkstra lm.adjacency s e) ≤
          pathWeight lm.adjacency Q := by
  obtain ⟨hnn, hwf⟩ := loadMapData_adjOK hload
  exact dijkstra_correct hnn hwf s e hconn

/-- A two-junction, one-road map used as the concrete C1 instance. -/
def mapC1 : MapData :=
  { roads := [⟨0, [⟨0,0,0⟩, ⟨10,0,0⟩]⟩],
    junctions := [⟨⟨0,0,0⟩, [0]⟩, ⟨⟨10,0,0⟩, [0]⟩] }

/-- The state the loader builds from `mapC1`. -/
def lmC1 : NavState :=
  { adjacency := [(0, [(1, ⟨0, 10⟩)]), (1, [(0, ⟨0, 10⟩)])],
    junction_locations := [(0, ⟨0,0,0⟩), (1, ⟨10,0,0⟩)],
    roads_raw := [(0, ⟨0, [⟨0,0,0⟩, ⟨10,0,0⟩], 10⟩)],
    junctions_raw := [⟨⟨0,0,0⟩, [0]⟩, ⟨⟨10,0,0⟩, [0]⟩],
    destination_junction_idx := 1,
    current_route_junctions := [],
    current_route_roads := [],
    last_known_road_id := none,
    next_maneuver_emitted := false }

/-- Witness for C1: on the concrete loader-built graph `lmC1`, both
hypotheses hold and the optimality conclusion follows. -/
theorem claim_C1_witness :
    loadMapData mapC1 = some lmC1 ∧
    GoodPath lmC1.adjacency 0 1 [0, 1] ∧
    (GoodPath lmC1.adjacency 0 1 (dijkstra lmC1.adjacency 0 1) ∧
      ∀ Q, GoodPath lmC1.adjacency 0 1 Q →
        pathWeight lmC1.adjacency (dijkstra lmC1.adjacency 0 1) ≤
          pathWeight lmC1.adjacency Q) := by
  have hload : loadMapData mapC1 = some lmC1 := by
    norm_num [loadMapData, mapC1, lmC1, buildRoadsRaw, buildNodes, buildRoadToJunctions,
      loadEdgeStep, addRoadConnection, connectAdjacent, pathLength, segPairs,
      Vector3.distance, Vector3.distance_sq, ratSqrt, lookupA, updateA, List.foldlM,
      List.enum, List.enumFrom, List.foldl,
      show Int.toNat 100 = 100 from by decide, show isqrt 100 = 10 from by decide,
      show isqrt 1 = 1 from by decide]
  exact ⟨hload, by decide, claim_C1 mapC1 lmC1 0 1 hload ⟨[0, 1], by decide⟩⟩

theorem scanSeg_step_spec (pos : Pt) (rid : ℤ) (st : Option ℤ × Option ℚ) (pq : Pt × Pt) :
    (∀ dm, (scanSeg pos rid st pq).2 = some dm →
      (∀ dm0, st.2 = some dm0 → dm ≤ dm0) ∧ dm ≤ distToSegment pos pq.1 pq.2) ∧
    (scanSeg pos rid st pq = st ∨
      ((scanSeg pos rid st pq).1 = some rid ∧
        (scanSeg pos rid st pq).2 = some (distToSegment pos pq.1 pq.2))) ∧
    ((scanSeg pos rid st pq).2 = none → False) := by
  unfold scanSeg
  cases hst : st.2 with
  | none =>
    refine ⟨?_, Or.inr ⟨rfl, rfl⟩, by simp⟩
    intro dm hdm
    simp at hdm
    refine ⟨?_, le_of_eq hdm.symm⟩
    intro dm0 h0
    exact absurd h0 (by simp)
  | some m =>
    by_cases hlt : distToSegment pos pq.1 pq.2 < m
    · refine ⟨?_, Or.inr ⟨by simp [hlt], by simp [hlt]⟩, by simp [hlt]⟩
      intro dm hdm
      simp [hlt] at hdm
      refine ⟨?_, le_of_eq hdm.symm⟩
      intro dm0 h0
      injection h0 with h0
      rw [← hdm, ← h0]
      exact le_of_lt hlt
    · refine ⟨?_, Or.inl (by simp [hlt]), by simp [hlt, hst]⟩
      intro dm hdm
      simp [hlt, hst] at hdm
      refine ⟨?_, ?_⟩
      · intro dm0 h0
        injection h0 with h0
        have hde : dm = dm0 := by rw [← hdm, ← h0]
        exact le_of_eq hde
      · rw [← hdm]
        exact le_of_not_lt hlt

theorem scanSeg_fold_spec (pos : Pt) (rid : ℤ) :
    ∀ (pairs : List (Pt × Pt)) (st : Option ℤ × Option ℚ),
      (∀ dm', (pairs.foldl (scanSeg pos rid) st).2 = some dm' →
        (∀ dm, st.2 = some dm → dm' ≤ dm) ∧
        ∀ pq ∈ pairs, dm' ≤ distToSegment pos pq.1 pq.2) ∧
      (pairs.foldl (scanSeg pos rid) st = st ∨
        ((pairs.foldl (scanSeg pos rid) st).1 = some rid ∧
          ∃ pq ∈ pairs,
            (pairs.foldl (scanSeg pos rid) st).2 = some (distToSegment pos pq.1 pq.2))) ∧
      ((pairs.foldl (scanSeg pos rid) st).2 = none → st.2 = none ∧ pairs = []) := by
  intro pairs
  induction pairs with
  | nil =>
    intro st
    simp only [List.foldl_nil]
    refine ⟨?_, Or.inl (by trivial), fun h => ⟨h, by trivial⟩⟩
    intro dm' h
    refine ⟨?_, by simp⟩
    intro dm hdm
    rw [h] at hdm
    injection hdm with h'
    exact le_of_eq h'
  | cons pq rest ih =>
    intro st
    simp only [List.foldl_cons]
    obtain ⟨ih1, ih2, ih3⟩ := ih (scanSeg pos rid st pq)
    obtain ⟨hs1, hs2, hs3⟩ := scanSeg_step_spec pos rid st pq
    refine ⟨?_, ?_, ?_⟩
    · intro dm' h
      obtain ⟨hlow, hpairs⟩ := ih1 dm' h
      cases hst1 : (scanSeg pos rid st pq).2 with
      | none => exact absurd hst1 (fun hh => hs3 hh)
      | some dmid =>
        obtain ⟨hmid1, hmid2⟩ := hs1 dmid hst1
        have hd' := hlow dmid hst1
        refine ⟨fun dm hdm => le_trans hd' (hmid1 dm hdm), ?_⟩
        intro pq' hpq'
        rcases List.mem_cons.mp hpq' with h' | h'
        · rw [h']
          exact le_trans hd' hmid2
        · exact hpairs pq' h'
    · rcases ih2 with h | h
      · rw [h]
        rcases hs2 with h' | h'
        · exact Or.inl h'
        · exact Or.inr ⟨h'.1, pq, List.mem_cons_self _ _, h'.2⟩
      · obtain ⟨h1, pq', hpq', h2⟩ := h
        exact Or.inr ⟨h1, pq', List.mem_cons_of_mem _ hpq', h2⟩
    · intro h
      exact absurd (ih3 h).1 (fun hh => hs3 hh)

theorem scanRoad_spec (pos : Pt) (road : Road) (st : Option ℤ × Option ℚ) :
    (∀ dm', (scanRoad pos st road).2 = some dm' →
      (∀ dm, st.2 = some dm → dm' ≤ dm) ∧
      ∀ pq ∈ segPairs road.path, dm' ≤ distToSegment pos pq.1 pq.2) ∧
    (scanRoad pos st road = st ∨
      ((scanRoad pos st road).1 = some road.road_id ∧
        ∃ pq ∈ segPairs road.path,
          (scanRoad pos st road).2 = some (distToSegment pos pq.1 pq.2))) ∧
    ((scanRoad pos st road).2 = none → st.2 = none ∧ segPairs road.path = []) := by
  unfold scanRoad
  by_cases hp : road.path = []
  · rw [if_pos hp]
    refine ⟨?_, Or.inl rfl, fun h => ⟨h, by rw [hp]; rfl⟩⟩
    intro dm' h
    refine ⟨?_, ?_⟩
    · intro dm hdm
      rw [h] at hdm
      injection hdm with h'
      exact le_of_eq h'
    · intro pq hpq
      rw [hp] at hpq
      simp [segPairs] at hpq
  · rw [if_neg hp]
    exact scanSeg_fold_spec pos road.road_id (segPairs road.path) st

theorem matcher_fold_spec (pos : Pt) :
    ∀ (l : List (ℤ × Road)) (st : Option ℤ × Option ℚ),
      (∀ dm', (l.foldl (fun st p => scanRoad pos st p.2) st).2 = some dm' →
        (∀ dm, st.2 = some dm → dm' ≤ dm) ∧
        ∀ p ∈ l, ∀ pq ∈ segPairs (p.2 : Road).path, dm' ≤ distToSegment pos pq.1 pq.2) ∧
      (l.foldl (fun st p => scanRoad pos st p.2) st = st ∨
        ∃ p ∈ l, (l.foldl (fun st p => scanRoad pos st p.2) st).1 = some (p.2 : Road).road_id ∧
          ∃ pq ∈ segPairs (p.2 : Road).path,
            (l.foldl (fun st p => scanRoad pos st p.2) st).2 = some (distToSegment pos pq.1 pq.2)) ∧
      ((l.foldl (fun st p => scanRoad pos st p.2) st).2 = none →
        st.2 = none ∧ ∀ p ∈ l, segPairs (p.2 : Road).path = []) := by
  intro l
  induction l with
  | nil =>
    intro st
    simp only [List.foldl_nil]
    refine ⟨?_, Or.inl (by trivial), fun h => ⟨h, by simp⟩⟩
    intro dm' h
    refine ⟨?_, by simp⟩
    intro dm hdm
    rw [h] at hdm
    injection hdm with h'
    exact le_of_eq h'
  | cons p rest ih =>
    intro st
    simp only [List.foldl_cons]
    obtain ⟨ih1, ih2, ih3⟩ := ih (scanRoad pos st p.2)
    obtain ⟨hr1, hr2, hr3⟩ := scanRoad_spec pos p.2 st
    refine ⟨?_, ?_, ?_⟩
    · intro dm' h
      obtain ⟨hlow, hroads⟩ := ih1 dm' h
      cases hst1 : (scanRoad pos st p.2).2 with
      | none =>
        obtain ⟨hstn, hsegn⟩ := hr3 hst1
        refine ⟨fun dm hdm => by rw [hstn] at hdm; exact absurd hdm (by simp), ?_⟩
        intro q hq pq hpq
        rcases List.mem_cons.mp hq with h' | h'
        · rw [h'] at hpq
          rw [hsegn] at hpq
          simp at hpq
        · exact hroads q h' pq hpq
      | some dmid =>
        obtain ⟨hmid1, hmid2⟩ := hr1 dmid hst1
        have hd' := hlow dmid hst1
        refine ⟨fun dm hdm => le_trans hd' (hmid1 dm hdm), ?_⟩
        intro q hq pq hpq
        rcases List.mem_cons.mp hq with h' | h'
        · rw [h'] at hpq
          exact le_trans hd' (hmid2 pq hpq)
        · exact hroads q h' pq hpq
    · rcases ih2 with h | h
      · rw [h]
        rcases hr2 with h' | h'
        · exact Or.inl h'
        · exact Or.inr ⟨p, List.mem_cons_self _ _, h'.1, h'.2⟩
      · obtain ⟨q, hq, h1, h2⟩ := h
        exact Or.inr ⟨q, List.mem_cons_of_mem _ hq, h1, h2⟩
    · intro h
      obtain ⟨h1, h2⟩ := ih3 h
      obtain ⟨h3, h4⟩ := hr3 h1
      refine ⟨h3, ?_⟩
      intro q hq
      rcases List.mem_cons.mp hq with h' | h'
      · rw [h']
        exact h4
      · exact h2 q h'

/-- C8: for every position, the map matcher returns `(road_id, distance)`
where `distance` is the minimum over every loaded road and every
consecutive polyline pair of the clamped point-to-segment distance, and
`road_id` is a road achieving that minimum; with no roads loaded it
returns `(None, inf)` (modelled `(none, none)`); a `none` distance arises
only when no road contributes a segment. -/
theorem claim_C8 (pos : Pt) (roadsRaw : List (ℤ × Road)) :
    (∀ dm, (getClosestRoad pos roadsRaw).2 = some dm →
      ∀ p ∈ roadsRaw, ∀ pq ∈ segPairs (p.2 : Road).path,
        dm ≤ distToSegment pos pq.1 pq.2) ∧
    (∀ r, (getClosestRoad pos roadsRaw).1 = some r →
      ∃ p ∈ roadsRaw, (p.2 : Road).road_id = r ∧
        ∃ pq ∈ segPairs (p.2 : Road).path,
          (getClosestRoad pos roadsRaw).2 = some (distToSegment pos pq.1 pq.2)) ∧
    (roadsRaw = [] → getClosestRoad pos roadsRaw = (none, none)) ∧
    ((getClosestRoad pos roadsRaw).2 = none →
      ∀ p ∈ roadsRaw, segPairs (p.2 : Road).path = []) := by
  obtain ⟨h1, h2, h3⟩ := matcher_fold_spec pos roadsRaw (none, none)
  refine ⟨?_, ?_, ?_, ?_⟩
  · intro dm hdm p hp pq hpq
    exact (h1 dm hdm).2 p hp pq hpq
  · intro r hr
    rcases h2 with h | h
    · unfold getClosestRoad at hr
      rw [h] at hr
      exact absurd hr (by simp)
    · obtain ⟨p, hp, hid, pq, hpq, hd⟩ := h
      unfold getClosestRoad at hr
      rw [hid] at hr
      injection hr with hr
      exact ⟨p, hp, hr, pq, hpq, hd⟩
  · intro h
    rw [h]
    rfl
  · intro h
    exact (h3 h).2

theorem segPairs_mem_length {pts : List Pt} {pq : Pt × Pt}
    (h : pq ∈ segPairs pts) : 2 ≤ pts.length := by
  cases pts with
  | nil => simp [segPairs] at h
  | cons a t =>
    cases t with
    | nil => simp [segPairs] at h
    | cons b t2 => simp [List.length_cons]

/-- C10: a loaded road whose polyline has fewer than two points is never
returned by the map matcher (it contributes no segment), provided road ids
are distinct. -/
theorem claim_C10 (pos : Pt) (roadsRaw : List (ℤ × Road)) (r : ℤ × Road)
    (hmem : r ∈ roadsRaw) (hshort : (r.2 : Road).path.length < 2)
    (hids : (roadsRaw.map (fun p => (p.2 : Road).road_id)).Nodup) :
    (getClosestRoad pos roadsRaw).1 ≠ some (r.2 : Road).road_id := by
  intro hr
  obtain ⟨_, h2, _⟩ := matcher_fold_spec pos roadsRaw (none, none)
  rcases h2 with h | h
  · unfold getClosestRoad at hr
    rw [h] at hr
    exact absurd hr (by simp)
  · obtain ⟨p, hp, hid, pq, hpq, _⟩ := h
    unfold getClosestRoad at hr
    rw [hid] at hr
    injection hr with hr
    have hpr : p = r :=
      List.inj_on_of_nodup_map hids hp hmem hr
    rw [hpr] at hpq
    have := segPairs_mem_length hpq
    omega

/-- The map used by the C10 witness: a one-point road (id 5) lying exactly
at the queried position, next to a normal two-point road (id 0). -/
def roads10 : List (ℤ × Road) :=
  [(5, ⟨5, [⟨0,0,0⟩], 0⟩), (0, ⟨0, [⟨0,0,0⟩, ⟨10,0,0⟩], 10⟩)]

/-- Witness for C10: even with the position on the one-point road's only
point, the matcher never returns that road. -/
theorem claim_C10_witness :
    (5, (⟨5, [⟨0,0,0⟩], 0⟩ : Road)) ∈ roads10 ∧
    ((5, (⟨5, [⟨0,0,0⟩], 0⟩ : Road)).2 : Road).path.length < 2 ∧
    (roads10.map (fun p => (p.2 : Road).road_id)).Nodup ∧
    (getClosestRoad ⟨0,0,0⟩ roads10).1 ≠ some 5 :=
  ⟨by decide, by decide, by decide,
    claim_C10 ⟨0,0,0⟩ roads10 (5, ⟨5, [⟨0,0,0⟩], 0⟩) (by decide) (by decide) (by decide)⟩

/-- Witness for C8: the empty-map case returns `(none, none)`, and on the
concrete one-road map the returned minimum distance 3 bounds the segment
distance, instantiating the theorem's inner hypotheses. -/
theorem claim_C8_witness :
    getClosestRoad ⟨0,0,0⟩ [] = (none, none) ∧
    (getClosestRoad ⟨5,3,0⟩ lmC1.roads_raw).2 = some 3 ∧
    3 ≤ distToSegment ⟨5,3,0⟩ ⟨0,0,0⟩ ⟨10,0,0⟩ := by
  have heval : (getClosestRoad ⟨5,3,0⟩ lmC1.roads_raw).2 = some 3 := by
    norm_num [getClosestRoad, lmC1, scanRoad, scanSeg, segPairs, distToSegment,
      Vector3.sub, Vector3.distance, Vector3.distance_sq, ratSqrt,
      show (([⟨0,0,0⟩, ⟨10,0,0⟩] : List Pt) = []) = False from by simp,
      show Int.toNat 9 = 9 from by decide, show isqrt 9 = 3 from by decide,
      show isqrt 1 = 1 from by decide]
  refine ⟨(claim_C8 ⟨0,0,0⟩ []).2.2.1 rfl, heval, ?_⟩
  exact (claim_C8 ⟨5,3,0⟩ lmC1.roads_raw).1 3 heval
    (0, ⟨0, [⟨0,0,0⟩, ⟨10,0,0⟩], 10⟩) (by decide)
    (⟨0,0,0⟩, ⟨10,0,0⟩) (by decide)

/-- C9: after building and normalizing the incoming and outgoing vectors at
the connecting junction, `_determine_maneuver` classifies "Go Straight" iff
the dot product strictly exceeds 0.8; otherwise the result is "Turn Left"
exactly when the 2-D cross product is positive and "Turn Right" exactly
when it is nonpositive. -/
theorem claim_C9 (s : NavState) (curId nextId : ℤ) (jidx : Nat)
    (rc rn : Road) (jd : Junction)
    (hrc : lookupA curId s.roads_raw = some rc)
    (hrn : lookupA nextId s.roads_raw = some rn)
    (hjd : s.junctions_raw.get? jidx = some jd)
    (hc : ¬ rc.path = []) (hn : ¬ rn.path = []) :
    (determineManeuver s curId nextId jidx = some "Go Straight" ↔
      4/5 < Vector3.dot (Vector3.normalize (incomingVec rc.path jd.location))
        (Vector3.normalize (outgoingVec rn.path jd.location))) ∧
    (determineManeuver s curId nextId jidx = some "Turn Left" ↔
      (Vector3.dot (Vector3.normalize (incomingVec rc.path jd.location))
          (Vector3.normalize (outgoingVec rn.path jd.location)) ≤ 4/5 ∧
        0 < Vector3.cross_y (Vector3.normalize (incomingVec rc.path jd.location))
          (Vector3.normalize (outgoingVec rn.path jd.location)))) ∧
    (determineManeuver s curId nextId jidx = some "Turn Right" ↔
      (Vector3.dot (Vector3.normalize (incomingVec rc.path jd.location))
          (Vector3.normalize (outgoingVec rn.path jd.location)) ≤ 4/5 ∧
        Vector3.cross_y (Vector3.normalize (incomingVec rc.path jd.location))
          (Vector3.normalize (outgoingVec rn.path jd.location)) ≤ 0)) := by
  have heq : determineManeuver s curId nextId jidx =
      some (classifyTurn (incomingVec rc.path jd.location)
        (outgoingVec rn.path jd.location)) := by
    unfold determineManeuver
    rw [hrc, hrn, hjd]
    simp [hc, hn]
  rw [heq]
  unfold classifyTurn
  by_cases h1 : 4/5 < Vector3.dot (Vector3.normalize (incomingVec rc.path jd.location))
      (Vector3.normalize (outgoingVec rn.path jd.location))
  · rw [if_pos h1]
    refine ⟨by simp [h1], ?_, ?_⟩
    · constructor
      · intro h
        simp at h
      · rintro ⟨hle, _⟩
        exact absurd h1 (not_lt.mpr hle)
    · constructor
      · intro h
        simp at h
      · rintro ⟨hle, _⟩
        exact absurd h1 (not_lt.mpr hle)
  · rw [if_neg h1]
    have hle := le_of_not_lt h1
    by_cases h2 : 0 < Vector3.cross_y (Vector3.normalize (incomingVec rc.path jd.location))
        (Vector3.normalize (outgoingVec rn.path jd.location))
    · rw [if_pos h2]
      refine ⟨?_, by simp [hle, h2], ?_⟩
      · constructor
        · intro h
          simp at h
        · intro h
          exact absurd h h1
      · constructor
        · intro h
          simp at h
        · rintro ⟨_, hc0⟩
          exact absurd h2 (not_lt.mpr hc0)
    · rw [if_neg h2]
      have hc0 := le_of_not_lt h2
      refine ⟨?_, ?_, by simp [hle, hc0]⟩
      · constructor
        · intro h
          simp at h
        · intro h
          exact absurd h h1
      · constructor
        · intro h
          simp at h
        · rintro ⟨_, hpos⟩
          exact absurd hpos h2

/-- The state used by the C9 witness: two perpendicular roads meeting at
junction 0 = (10, 0, 0). -/
def lmC9 : NavState :=
  { adjacency := [],
    junction_locations := [],
    roads_raw := [(0, ⟨0, [⟨0,0,0⟩, ⟨10,0,0⟩], 10⟩), (1, ⟨1, [⟨10,0,0⟩, ⟨10,10,0⟩], 10⟩)],
    junctions_raw := [⟨⟨10,0,0⟩, [0, 1]⟩],
    destination_junction_idx := 0,
    current_route_junctions := [],
    current_route_roads := [],
    last_known_road_id := none,
    next_maneuver_emitted := false }

/-- Witness for C9: on the concrete perpendicular-roads state, the dot
product is 0 and the cross product is 1, so the maneuver is "Turn Left". -/
theorem claim_C9_witness :
    lookupA 0 lmC9.roads_raw = some ⟨0, [⟨0,0,0⟩, ⟨10,0,0⟩], 10⟩ ∧
    determineManeuver lmC9 0 1 0 = some "Turn Left" := by
  have h := claim_C9 lmC9 0 1 0 ⟨0, [⟨0,0,0⟩, ⟨10,0,0⟩], 10⟩ ⟨1, [⟨10,0,0⟩, ⟨10,10,0⟩], 10⟩
    ⟨⟨10,0,0⟩, [0, 1]⟩ (by decide) (by decide) (by decide) (by decide) (by decide)
  refine ⟨by decide, h.2.1.mpr ⟨?_, ?_⟩⟩
  · norm_num [incomingVec, outgoingVec, Vector3.sub, Vector3.distance_sq,
      Vector3.normalize, Vector3.dot, ratSqrt,
      show Int.toNat 100 = 100 from by decide, show isqrt 100 = 10 from by decide,
      show isqrt 1 = 1 from by decide]
  · norm_num [incomingVec, outgoingVec, Vector3.sub, Vector3.distance_sq,
      Vector3.normalize, Vector3.cross_y, ratSqrt,
      show Int.toNat 100 = 100 from by decide, show isqrt 100 = 10 from by decide,
      show isqrt 1 = 1 from by decide]

theorem advanceRoute_spec (rid : ℤ) :
    ∀ (roads : List ℤ) (flag : Bool), rid ∈ roads →
      (advanceRoute rid roads flag).1.head? = some rid ∧
      (advanceRoute rid roads flag).1.IsSuffix roads ∧
      (advanceRoute rid roads flag).2 =
        (if roads.head? = some rid then flag else false) := by
  intro roads
  induction roads with
  | nil => intro flag h; simp at h
  | cons r rest ih =>
    intro flag h
    by_cases hr : r = rid
    · subst hr
      simp [advanceRoute]
    · have hmem : rid ∈ rest := by
        rcases List.mem_cons.mp h with h' | h'
        · exact absurd h'.symm hr
        · exact h'
      obtain ⟨ih1, ih2, ih3⟩ := ih false hmem
      have hne : ¬ ((r :: rest).head? = some rid) := by
        simp [hr]
      refine ⟨?_, ?_, ?_⟩
      · simpa [advanceRoute, hr] using ih1
      · have : (advanceRoute rid rest false).1.IsSuffix rest := ih2
        have h2 : (advanceRoute rid rest false).1.IsSuffix (r :: rest) :=
          this.trans (List.suffix_cons r rest)
        simpa [advanceRoute, hr] using h2
      · rw [if_neg hne]
        have : (advanceRoute rid (r :: rest) flag).2 = (advanceRoute rid rest false).2 := by
          simp [advanceRoute, hr]
        rw [this, ih3]
        by_cases hh : rest.head? = some rid <;> simp [hh]

theorem advanceRoute_eq_self {rid : ℤ} {roads : List ℤ} {flag : Bool}
    (hmem : rid ∈ roads) (heq : (advanceRoute rid roads flag).1 = roads) :
    roads.head? = some rid ∧ advanceRoute rid roads flag = (roads, flag) := by
  cases roads with
  | nil => simp at hmem
  | cons r rest =>
    by_cases hr : r = rid
    · subst hr
      simp [advanceRoute]
    · have hmem' : rid ∈ rest := by
        rcases List.mem_cons.mp hmem with h' | h'
        · exact absurd h'.symm hr
        · exact h'
      obtain ⟨_, hsuf, _⟩ := advanceRoute_spec rid rest false hmem'
      have hlen : (advanceRoute rid rest false).1.length ≤ rest.length :=
        hsuf.length_le
      have heq' : (advanceRoute rid (r :: rest) flag).1 = (advanceRoute rid rest false).1 := by
        simp [advanceRoute, hr]
      rw [heq'] at heq
      have : (r :: rest).length ≤ rest.length := heq ▸ hlen
      simp at this

theorem processEmit_spec {s : NavState} {pos : Pt} {rid : ℤ} {s' : NavState}
    {out : List String} (h : processEmit s pos rid = some (s', out)) :
    s'.current_route_roads = s.current_route_roads ∧
    s'.current_route_junctions = s.current_route_junctions ∧
    s'.roads_raw = s.roads_raw ∧
    s'.junctions_raw = s.junctions_raw ∧
    s'.adjacency = s.adjacency ∧
    s'.destination_junction_idx = s.destination_junction_idx ∧
    s'.last_known_road_id = s.last_known_road_id ∧
    out.length ≤ 1 ∧
    (out = [] → s' = s) ∧
    (out ≠ [] → s.next_maneuver_emitted = false ∧ s'.next_maneuver_emitted = true) := by
  have hleaf : (s' = s ∧ out = []) ∨
      (s' = { s with next_maneuver_emitted := true } ∧ out.length = 1 ∧
        s.next_maneuver_emitted = false) := by
    unfold processEmit at h
    cases hroads : s.current_route_roads with
    | nil =>
      rw [hroads] at h
      simp only [Option.pure_def, Option.some.injEq, Prod.mk.injEq] at h
      left
      exact ⟨h.1.symm, h.2.symm⟩
    | cons r0 rest0 =>
      cases rest0 with
      | nil =>
        rw [hroads] at h
        cases hlast : s.current_route_junctions.getLast? with
        | none =>
          rw [hlast] at h
          simp only [Option.pure_def, Option.some.injEq, Prod.mk.injEq] at h
          left
          exact ⟨h.1.symm, h.2.symm⟩
        | some destJ =>
          rw [hlast] at h
          simp only [Option.bind_eq_bind] at h
          obtain ⟨jd, _, h2⟩ := Option.bind_eq_some.mp h
          by_cases hcond : Vector3.distance pos jd.location < 50 ∧
              s.next_maneuver_emitted = false
          · rw [if_pos hcond] at h2
            simp only [Option.pure_def, Option.some.injEq, Prod.mk.injEq] at h2
            right
            refine ⟨?_, ?_, hcond.2⟩
            · rw [← h2.1, ← hroads]
            · rw [← h2.2]
              simp
          · rw [if_neg hcond] at h2
            simp only [Option.pure_def, Option.some.injEq, Prod.mk.injEq] at h2
            left
            exact ⟨h2.1.symm, h2.2.symm⟩
      | cons r1 rest1 =>
        rw [hroads] at h
        simp only [Option.bind_eq_bind] at h
        obtain ⟨fj, _, h2⟩ := Option.bind_eq_some.mp h
        cases fj with
        | none =>
          simp only [Option.pure_def, Option.some.injEq, Prod.mk.injEq] at h2
          left
          exact ⟨h2.1.symm, h2.2.symm⟩
        | some targetJ =>
          obtain ⟨jd, _, h3⟩ := Option.bind_eq_some.mp h2
          by_cases hcond : Vector3.distance pos jd.location < NOTIFICATION_DISTANCE ∧
              s.next_maneuver_emitted = false
          · rw [if_pos hcond] at h3
            obtain ⟨m, _, h4⟩ := Option.bind_eq_some.mp h3
            simp only [Option.pure_def, Option.some.injEq, Prod.mk.injEq] at h4
            right
            refine ⟨?_, ?_, hcond.2⟩
            · rw [← h4.1, ← hroads]
            · rw [← h4.2]
              simp
          · rw [if_neg hcond] at h3
            simp only [Option.pure_def, Option.some.injEq, Prod.mk.injEq] at h3
            left
            exact ⟨h3.1.symm, h3.2.symm⟩
  rcases hleaf with ⟨hs, ho⟩ | ⟨hs, ho, hflag⟩
  · subst hs; subst ho
    exact ⟨rfl, rfl, rfl, rfl, rfl, rfl, rfl, by simp, fun _ => rfl, fun hne => absurd rfl hne⟩
  · subst hs
    refine ⟨rfl, rfl, rfl, rfl, rfl, rfl, rfl, by omega, ?_, fun _ => ⟨hflag, rfl⟩⟩
    intro hnil
    rw [hnil] at ho
    simp at ho

theorem recalculateRoute_env {s : NavState} {rid : ℤ} {s' : NavState}
    (h : recalculateRoute s rid = some s') :
    s'.roads_raw = s.roads_raw ∧ s'.junctions_raw = s.junctions_raw ∧
    s'.adjacency = s.adjacency ∧
    s'.destination_junction_idx = s.destination_junction_idx ∧
    s'.last_known_road_id = s.last_known_road_id := by
  unfold recalculateRoute at h
  cases hcj : connectedJunctions s.junctions_raw rid with
  | nil =>
    rw [hcj] at h
    simp only [Option.some.injEq] at h
    rw [← h]
    exact ⟨rfl, rfl, rfl, rfl, rfl⟩
  | cons j rest =>
    rw [hcj] at h
    simp only [Option.bind_eq_bind] at h
    obtain ⟨roads, _, h2⟩ := Option.bind_eq_some.mp h
    simp only [Option.pure_def, Option.some.injEq] at h2
    rw [← h2]
    exact ⟨rfl, rfl, rfl, rfl, rfl⟩

theorem processRouteLogic_offroute {s : NavState} {rid : ℤ} {d : ℚ}
    (hoff : rid ∉ s.current_route_roads) :
    processRouteLogic s rid (some d) =
      if d < OFF_ROUTE_TOLERANCE then recalculateRoute s rid else some s := by
  by_cases hd : d < OFF_ROUTE_TOLERANCE <;>
    simp [processRouteLogic, hoff, hd]

theorem processRouteLogic_onroute {s : NavState} {rid : ℤ} {dist : Option ℚ}
    (hon : rid ∈ s.current_route_roads) :
    processRouteLogic s rid dist =
      some { s with
        current_route_roads := (advanceRoute rid s.current_route_roads s.next_maneuver_emitted).1,
        next_maneuver_emitted := (advanceRoute rid s.current_route_roads s.next_maneuver_emitted).2 } := by
  have hhead := (advanceRoute_spec rid _ s.next_maneuver_emitted hon).1
  have hne : (advanceRoute rid s.current_route_roads s.next_maneuver_emitted).1 ≠ [] := by
    intro h
    rw [h] at hhead
    simp at hhead
  simp [processRouteLogic, hon, hne]

/-- C5: on an off-route tick, recomputation is triggered iff the matched
distance is strictly below the off-route tolerance (50): a distance equal
to (or above) the tolerance leaves the route untouched, while a distance
strictly below it replaces the route with the recomputation's result. -/
theorem claim_C5 (s : NavState) (pos : Pt) (rid : ℤ) (d : ℚ) (s' : NavState)
    (out : List String)
    (hmatch : getClosestRoad pos s.roads_raw = (some rid, some d))
    (hoff : rid ∉ s.current_route_roads)
    (hrun : process s pos = some (s', out)) :
    (OFF_ROUTE_TOLERANCE ≤ d →
      s'.current_route_roads = s.current_route_roads ∧
      s'.current_route_junctions = s.current_route_junctions) ∧
    (d < OFF_ROUTE_TOLERANCE →
      ∃ smid, recalculateRoute s rid = some smid ∧
        s'.current_route_roads = smid.current_route_roads ∧
        s'.current_route_junctions = smid.current_route_junctions) := by
  unfold process at hrun
  rw [hmatch] at hrun
  have hrun' : processMatched s pos rid (some d) = some (s', out) := hrun
  unfold processMatched at hrun'
  simp only [Option.bind_eq_bind] at hrun'
  obtain ⟨s2, hroute, hemit⟩ := Option.bind_eq_some.mp hrun'
  obtain ⟨he1, he2, _⟩ := processEmit_spec hemit
  rw [processRouteLogic_offroute hoff] at hroute
  constructor
  · intro hge
    rw [if_neg (not_lt.mpr hge)] at hroute
    injection hroute with hroute
    rw [he1, he2, ← hroute]
    exact ⟨rfl, rfl⟩
  · intro hlt
    rw [if_pos hlt] at hroute
    exact ⟨s2, hroute, by rw [he1], by rw [he2]⟩

/-- C6: on a tick where the matched road appears in the (nonempty) route,
roads are popped from the front until the front equals the matched road,
each pop resetting the maneuver flag; the popping consults neither the
position nor the matched distance. -/
theorem claim_C6 (s : NavState) (pos : Pt) (rid : ℤ) (dist : Option ℚ)
    (s' : NavState) (out : List String)
    (hmatch : getClosestRoad pos s.roads_raw = (some rid, dist))
    (hon : rid ∈ s.current_route_roads)
    (hrun : process s pos = some (s', out)) :
    s'.current_route_roads =
      (advanceRoute rid s.current_route_roads s.next_maneuver_emitted).1 ∧
    s'.current_route_roads.head? = some rid ∧
    s'.current_route_roads.IsSuffix s.current_route_roads ∧
    (advanceRoute rid s.current_route_roads s.next_maneuver_emitted).2 =
      (if s.current_route_roads.head? = some rid then s.next_maneuver_emitted
       else false) := by
  obtain ⟨hhead, hsuf, hflag⟩ := advanceRoute_spec rid _ s.next_maneuver_emitted hon
  unfold process at hrun
  rw [hmatch] at hrun
  have hrun' : processMatched s pos rid dist = some (s', out) := hrun
  unfold processMatched at hrun'
  simp only [Option.bind_eq_bind] at hrun'
  obtain ⟨s2, hroute, hemit⟩ := Option.bind_eq_some.mp hrun'
  obtain ⟨he1, _, _⟩ := processEmit_spec hemit
  rw [processRouteLogic_onroute hon] at hroute
  injection hroute with hroute
  have hroads : s'.current_route_roads =
      (advanceRoute rid s.current_route_roads s.next_maneuver_emitted).1 := by
    rw [he1, ← hroute]
  exact ⟨hroads, by rw [hroads]; exact hhead, by rw [hroads]; exact hsuf, hflag⟩

/-- Witness for C5: with the vehicle exactly 50 units from the only road
and an empty route, the tick leaves the route unchanged. -/
theorem claim_C5_witness :
    getClosestRoad ⟨0,50,0⟩ lmC1.roads_raw = (some 0, some 50) ∧
    process lmC1 ⟨0,50,0⟩ = some ({ lmC1 with last_known_road_id := some 0 }, []) ∧
    ({ lmC1 with last_known_road_id := some 0 } : NavState).current_route_roads =
      lmC1.current_route_roads ∧
    ({ lmC1 with last_known_road_id := some 0 } : NavState).current_route_junctions =
      lmC1.current_route_junctions := by
  have hmatch : getClosestRoad ⟨0,50,0⟩ lmC1.roads_raw = (some 0, some 50) := by
    norm_num [getClosestRoad, lmC1, scanRoad, scanSeg, segPairs, distToSegment,
      Vector3.sub, Vector3.distance, Vector3.distance_sq, ratSqrt,
      show (([⟨0,0,0⟩, ⟨10,0,0⟩] : List Pt) = []) = False from by simp,
      show Int.toNat 2500 = 2500 from by decide, show isqrt 2500 = 50 from by decide,
      show isqrt 1 = 1 from by decide]
  have hrun : process lmC1 ⟨0,50,0⟩ =
      some ({ lmC1 with last_known_road_id := some 0 }, []) := by
    unfold process
    rw [hmatch]
    show processMatched lmC1 ⟨0,50,0⟩ 0 (some 50) = _
    unfold processMatched
    rw [processRouteLogic_offroute (by decide)]
    norm_num [OFF_ROUTE_TOLERANCE, processEmit, lmC1]
  have h := (claim_C5 lmC1 ⟨0,50,0⟩ 0 50 _ _ hmatch (by decide) hrun).1
    (by norm_num [OFF_ROUTE_TOLERANCE])
  exact ⟨hmatch, hrun, h.1, h.2⟩

/-- The state used by the C6 witness: the matched road 7 is the second
entry of the active route, and the maneuver flag is set. -/
def lmC6 : NavState :=
  { adjacency := [], junction_locations := [],
    roads_raw := [(7, ⟨7, [⟨0,0,0⟩, ⟨10,0,0⟩], 10⟩)],
    junctions_raw := [], destination_junction_idx := 1,
    current_route_junctions := [], current_route_roads := [3, 7],
    last_known_road_id := none, next_maneuver_emitted := true }

/-- The state after the C6 witness tick: road 3 popped, flag reset. -/
def lmC6r : NavState :=
  { lmC6 with
    current_route_roads := [7]
    next_maneuver_emitted := false
    last_known_road_id := some 7 }

/-- Witness for C6: with route `[3, 7]` and matched road 7, the tick pops
road 3, the new front is road 7, and the maneuver flag is reset even
though the flag was set before. -/
theorem claim_C6_witness :
    getClosestRoad ⟨5,0,0⟩ lmC6.roads_raw = (some 7, some 0) ∧
    process lmC6 ⟨5,0,0⟩ = some (lmC6r, []) ∧
    lmC6r.current_route_roads = (advanceRoute 7 lmC6.current_route_roads true).1 ∧
    lmC6r.current_route_roads.head? = some 7 ∧
    lmC6r.current_route_roads.IsSuffix lmC6.current_route_roads ∧
    (advanceRoute 7 lmC6.current_route_roads true).2 = false := by
  have hmatch : getClosestRoad ⟨5,0,0⟩ lmC6.roads_raw = (some 7, some 0) := by
    norm_num [getClosestRoad, lmC6, scanRoad, scanSeg, segPairs, distToSegment,
      Vector3.sub, Vector3.distance, Vector3.distance_sq, ratSqrt,
      show (([⟨0,0,0⟩, ⟨10,0,0⟩] : List Pt) = []) = False from by simp,
      show isqrt 0 = 0 from by decide, show isqrt 1 = 1 from by decide]
  have hrun : process lmC6 ⟨5,0,0⟩ = some (lmC6r, []) := by
    unfold process
    rw [hmatch]
    show processMatched lmC6 ⟨5,0,0⟩ 7 (some 0) = _
    unfold processMatched
    rw [processRouteLogic_onroute (by decide)]
    simp only [Option.bind_eq_bind, Option.some_bind]
    norm_num [advanceRoute, processEmit, lmC6, lmC6r]
  have h := claim_C6 lmC6 ⟨5,0,0⟩ 7 (some 0) lmC6r [] hmatch (by decide) hrun
  refine ⟨hmatch, hrun, h.1, h.2.1, h.2.2.1, ?_⟩
  have := h.2.2.2
  simpa [lmC6] using this

/-- The map used for C2/C4: road 7 is a dead end touching only junction 0,
and the default destination (junction 1) is unreachable. -/
def mapC2 : MapData :=
  { roads := [⟨7, [⟨0,0,0⟩, ⟨10,0,0⟩]⟩],
    junctions := [⟨⟨0,0,0⟩, [7]⟩, ⟨⟨1000,0,0⟩, []⟩] }

/-- The state the loader builds from `mapC2`. -/
def lmC2 : NavState :=
  { adjacency := [(0, []), (1, [])],
    junction_locations := [(0, ⟨0,0,0⟩), (1, ⟨1000,0,0⟩)],
    roads_raw := [(7, ⟨7, [⟨0,0,0⟩, ⟨10,0,0⟩], 10⟩)],
    junctions_raw := [⟨⟨0,0,0⟩, [7]⟩, ⟨⟨1000,0,0⟩, []⟩],
    destination_junction_idx := 1,
    current_route_junctions := [], current_route_roads := [],
    last_known_road_id := none, next_maneuver_emitted := false }

/-- The state after `_recalculate_route` on `lmC2` with matched road 7. -/
def lmC2rec : NavState :=
  { lmC2 with
    current_route_junctions := []
    current_route_roads := [7]
    next_maneuver_emitted := false }

/-- The state after a full `process` tick on `lmC2` at position (5,0,0). -/
def lmC2r : NavState :=
  { lmC2 with
    current_route_roads := [7]
    last_known_road_id := some 7 }

theorem loadC2_eval : loadMapData mapC2 = some lmC2 := by
  norm_num [loadMapData, mapC2, lmC2, buildRoadsRaw, buildNodes, buildRoadToJunctions,
    loadEdgeStep, addRoadConnection, connectAdjacent, pathLength, segPairs,
    Vector3.distance, Vector3.distance_sq, ratSqrt, lookupA, updateA, List.foldlM,
    List.enum, List.enumFrom, List.foldl,
    show Int.toNat 100 = 100 from by decide, show isqrt 100 = 10 from by decide,
    show isqrt 1 = 1 from by decide]

theorem matchC2_eval : getClosestRoad ⟨5,0,0⟩ lmC2.roads_raw = (some 7, some 0) := by
  norm_num [getClosestRoad, lmC2, scanRoad, scanSeg, segPairs, distToSegment,
    Vector3.sub, Vector3.distance, Vector3.distance_sq, ratSqrt,
    show (([⟨0,0,0⟩, ⟨10,0,0⟩] : List Pt) = []) = False from by simp,
    show isqrt 0 = 0 from by decide, show isqrt 1 = 1 from by decide]

theorem recalcC2_eval : recalculateRoute lmC2 7 = some lmC2rec := by
  unfold recalculateRoute
  rw [show connectedJunctions lmC2.junctions_raw 7 = [0] from by decide]
  simp [roadsFromPath, lmC2rec,
    show dijkstra lmC2.adjacency 0 lmC2.destination_junction_idx = [] from by decide]

theorem processC2_eval : process lmC2 ⟨5,0,0⟩ = some (lmC2r, []) := by
  unfold process
  rw [matchC2_eval]
  show processMatched lmC2 ⟨5,0,0⟩ 7 (some 0) = _
  unfold processMatched
  rw [processRouteLogic_offroute (by decide)]
  rw [if_pos (by norm_num [OFF_ROUTE_TOLERANCE])]
  rw [recalcC2_eval]
  simp only [Option.bind_eq_bind, Option.some_bind]
  rfl

/-- An emission pass with an empty `current_route_junctions` list emits
nothing and leaves the state unchanged (both branches need a junction). -/
theorem processEmit_no_route_junctions {s : NavState} {pos : Pt} {rid : ℤ}
    (hj : s.current_route_junctions = []) :
    processEmit s pos rid = some (s, []) := by
  unfold processEmit
  cases hroads : s.current_route_roads with
  | nil => rfl
  | cons r0 rest =>
    cases rest with
    | nil =>
      rw [hj]
      rfl
    | cons r1 rest1 =>
      rw [hj]
      rfl

/-- C2 counterexample: on the loader-built state `lmC2` the destination is
unreachable (dijkstra returns `[]`), yet after the tick
`current_route_roads` is `[7]`, not empty — the matched road is prepended
even to an empty recomputed route. -/
theorem claim_C2_counterexample :
    loadMapData mapC2 = some lmC2 ∧
    dijkstra lmC2.adjacency 0 lmC2.destination_junction_idx = [] ∧
    process lmC2 ⟨5,0,0⟩ = some (lmC2r, []) ∧
    lmC2r.current_route_junctions = [] ∧
    lmC2r.current_route_roads = [7] ∧
    lmC2r.current_route_roads ≠ [] :=
  ⟨loadC2_eval, by decide, processC2_eval, by decide, by decide, by decide⟩

/-- C2 (amended): when the shortest-path search returns an empty path on an
off-route tick within tolerance, recomputation leaves
`current_route_junctions` empty but sets `current_route_roads` to exactly
`[matched_road]` (the matched road is prepended to the empty list), and no
maneuver is emitted on that tick. -/
theorem claim_C2 (s : NavState) (pos : Pt) (rid : ℤ) (d : ℚ) (j : Nat)
    (js : List Nat) (s' : NavState) (out : List String)
    (hmatch : getClosestRoad pos s.roads_raw = (some rid, some d))
    (hoff : rid ∉ s.current_route_roads)
    (hd : d < OFF_ROUTE_TOLERANCE)
    (hconn : connectedJunctions s.junctions_raw rid = j :: js)
    (hdij : dijkstra s.adjacency j s.destination_junction_idx = [])
    (hrun : process s pos = some (s', out)) :
    s'.current_route_junctions = [] ∧
    s'.current_route_roads = [rid] ∧
    out = [] := by
  have hrec : recalculateRoute s rid = some
      { s with current_route_junctions := [], current_route_roads := [rid],
               next_maneuver_emitted := false } := by
    unfold recalculateRoute
    rw [hconn]
    simp [roadsFromPath, hdij]
  unfold process at hrun
  rw [hmatch] at hrun
  have hrun' : processMatched s pos rid (some d) = some (s', out) := hrun
  unfold processMatched at hrun'
  simp only [Option.bind_eq_bind] at hrun'
  obtain ⟨s2, hroute, hemit⟩ := Option.bind_eq_some.mp hrun'
  rw [processRouteLogic_offroute hoff, if_pos hd, hrec] at hroute
  injection hroute with hroute
  rw [← hroute] at hemit
  rw [processEmit_no_route_junctions rfl] at hemit
  injection hemit with hemit
  rw [Prod.mk.injEq] at hemit
  obtain ⟨hs', ho⟩ := hemit
  rw [← hs', ← ho]
  exact ⟨rfl, rfl, rfl⟩

/-- Witness for C2 (amended): concrete unreachable-destination tick. -/
theorem claim_C2_witness :
    getClosestRoad ⟨5,0,0⟩ lmC2.roads_raw = (some 7, some 0) ∧
    (0 : ℚ) < OFF_ROUTE_TOLERANCE ∧
    lmC2r.current_route_junctions = [] ∧
    lmC2r.current_route_roads = [7] := by
  have h := claim_C2 lmC2 ⟨5,0,0⟩ 7 0 0 [] lmC2r [] matchC2_eval (by decide)
    (by norm_num [OFF_ROUTE_TOLERANCE]) (by decide) (by decide) processC2_eval
  exact ⟨matchC2_eval, by norm_num [OFF_ROUTE_TOLERANCE], h.1, h.2.1⟩

/-- C4 counterexample: after the unreachable-destination tick the route is
nonempty (one road) while the junction list is empty, so
`current_route_roads` is not one element shorter than
`current_route_junctions`. -/
theorem claim_C4_counterexample :
    process lmC2 ⟨5,0,0⟩ = some (lmC2r, []) ∧
    lmC2r.current_route_roads ≠ [] ∧
    lmC2r.current_route_roads.length + 1 ≠ lmC2r.current_route_junctions.length :=
  ⟨processC2_eval, by decide, by decide⟩

/-- C4 (amended): after a recomputation that found a junction touching the
matched road, the route is nonempty and its first entry is the matched
road; but the length relation of the original claim does not hold in
general (prepending the matched road, the unreachable case, and leg
advancement, which pops roads but never junctions, all break it). -/
theorem claim_C4 (s : NavState) (rid : ℤ) (s' : NavState)
    (hconn : connectedJunctions s.junctions_raw rid ≠ [])
    (hrec : recalculateRoute s rid = some s') :
    s'.current_route_roads ≠ [] ∧ s'.current_route_roads.head? = some rid := by
  unfold recalculateRoute at hrec
  cases hcj : connectedJunctions s.junctions_raw rid with
  | nil => exact absurd hcj hconn
  | cons j js =>
    rw [hcj] at hrec
    simp only [Option.bind_eq_bind] at hrec
    obtain ⟨roads, _, h2⟩ := Option.bind_eq_some.mp hrec
    simp only [Option.pure_def, Option.some.injEq] at h2
    by_cases hcase : roads = [] ∨ roads.head? ≠ some rid
    · rw [if_pos hcase] at h2
      rw [← h2]
      exact ⟨by simp, by simp⟩
    · rw [if_neg hcase] at h2
      push_neg at hcase
      rw [← h2]
      exact ⟨hcase.1, hcase.2⟩

/-- Witness for C4 (amended): the concrete recomputation on `lmC2` yields
route `[7]` headed by the matched road. -/
theorem claim_C4_witness :
    connectedJunctions lmC2.junctions_raw 7 ≠ [] ∧
    recalculateRoute lmC2 7 = some lmC2rec ∧
    lmC2rec.current_route_roads ≠ [] ∧
    lmC2rec.current_route_roads.head? = some 7 := by
  have h := claim_C4 lmC2 7 lmC2rec (by decide) recalcC2_eval
  exact ⟨by decide, recalcC2_eval, h.1, h.2⟩

theorem addRoadConnection_findEdge {adj adj' : Adj} {jf jt : Nat} {rid : ℤ} {w : ℚ}
    (h : addRoadConnection adj jf jt rid w = some adj') (hne : jf ≠ jt) :
    findEdge adj' jf jt = some ⟨rid, w⟩ ∧ findEdge adj' jt jf = some ⟨rid, w⟩ := by
  unfold addRoadConnection at h
  cases hnf : lookupA jf adj with
  | none => rw [hnf] at h; exact absurd h (by simp)
  | some nf =>
    rw [hnf] at h
    simp only [Option.bind_eq_bind, Option.some_bind] at h
    cases hnt : lookupA jt (updateA jf (updateA jt ⟨rid, w⟩ nf) adj) with
    | none => rw [hnt] at h; exact absurd h (by simp)
    | some nt =>
      rw [hnt] at h
      simp only [Option.some_bind, Option.pure_def, Option.some.injEq] at h
      subst h
      constructor
      · unfold findEdge
        rw [lookupA_updateA_ne _ _ _ _ hne.symm, lookupA_updateA_self]
        exact lookupA_updateA_self _ _ _
      · unfold findEdge
        rw [lookupA_updateA_self]
        exact lookupA_updateA_self _ _ _

/-- C3 (amended): a road touching exactly two (distinct) junctions receives
one direct symmetric edge weighted by the road's full polyline length as
stored in `roads_raw` — not by the distance between the junctions'
projections along the road (projection-based weights are used only for
roads touching more than two junctions). -/
theorem claim_C3 (roadsRaw : List (ℤ × Road)) (junctions : List Junction)
    (adj adj' : Adj) (rid : ℤ) (j0 j1 : Nat) (rd : Road)
    (hstep : loadEdgeStep roadsRaw junctions adj (rid, [j0, j1]) = some adj')
    (hrd : lookupA rid roadsRaw = some rd) (hne : j0 ≠ j1) :
    findEdge adj' j0 j1 = some ⟨rid, rd.length⟩ ∧
    findEdge adj' j1 j0 = some ⟨rid, rd.length⟩ := by
  unfold loadEdgeStep at hstep
  rw [hrd] at hstep
  simp only [Option.bind_eq_bind, Option.some_bind] at hstep
  exact addRoadConnection_findEdge hstep hne

/-- The C3 map: one straight road of length 100 whose two junctions sit at
30 and 70 along it. -/
def mapC3 : MapData :=
  { roads := [⟨0, [⟨0,0,0⟩, ⟨100,0,0⟩]⟩],
    junctions := [⟨⟨30,0,0⟩, [0]⟩, ⟨⟨70,0,0⟩, [0]⟩] }

/-- The state the loader builds from `mapC3`. -/
def lmC3 : NavState :=
  { adjacency := [(0, [(1, ⟨0, 100⟩)]), (1, [(0, ⟨0, 100⟩)])],
    junction_locations := [(0, ⟨30,0,0⟩), (1, ⟨70,0,0⟩)],
    roads_raw := [(0, ⟨0, [⟨0,0,0⟩, ⟨100,0,0⟩], 100⟩)],
    junctions_raw := [⟨⟨30,0,0⟩, [0]⟩, ⟨⟨70,0,0⟩, [0]⟩],
    destination_junction_idx := 1,
    current_route_junctions := [], current_route_roads := [],
    last_known_road_id := none, next_maneuver_emitted := false }

set_option maxHeartbeats 2000000 in
/-- C3 counterexample: on the straight road of length 100 whose two
junctions project to distances 30 and 70, the loader-built graph's edge
between them has weight 100 (the full road length), not 40; the graph's
nodes are exactly the two junctions, so no endpoint-bypassing edge exists
either. -/
theorem claim_C3_counterexample :
    loadMapData mapC3 = some lmC3 ∧
    distAlongPath [⟨0,0,0⟩, ⟨100,0,0⟩] ⟨30,0,0⟩ = 30 ∧
    distAlongPath [⟨0,0,0⟩, ⟨100,0,0⟩] ⟨70,0,0⟩ = 70 ∧
    findEdge lmC3.adjacency 0 1 = some ⟨0, 100⟩ ∧
    ¬ findEdge lmC3.adjacency 0 1 = some ⟨0, 40⟩ ∧
    lmC3.adjacency.map Prod.fst = [0, 1] := by
  refine ⟨?_, ?_, ?_, by decide, by decide, by decide⟩
  · norm_num [loadMapData, mapC3, lmC3, buildRoadsRaw, buildNodes, buildRoadToJunctions,
      loadEdgeStep, addRoadConnection, connectAdjacent, pathLength, segPairs,
      Vector3.distance, Vector3.distance_sq, ratSqrt, lookupA, updateA, List.foldlM,
      List.enum, List.enumFrom, List.foldl,
      show Int.toNat 10000 = 10000 from by decide, show isqrt 10000 = 100 from by decide,
      show isqrt 1 = 1 from by decide]
  · norm_num [distAlongPath, bestProjection, segPairs, Vector3.sub, Vector3.distance,
      Vector3.distance_sq, ratSqrt, List.range, List.range.loop,
      show Int.toNat 10000 = 10000 from by decide, show isqrt 10000 = 100 from by decide,
      show isqrt 0 = 0 from by decide, show isqrt 1 = 1 from by decide]
  · norm_num [distAlongPath, bestProjection, segPairs, Vector3.sub, Vector3.distance,
      Vector3.distance_sq, ratSqrt, List.range, List.range.loop,
      show Int.toNat 10000 = 10000 from by decide, show isqrt 10000 = 100 from by decide,
      show isqrt 0 = 0 from by decide, show isqrt 1 = 1 from by decide]

/-- Witness for C3 (amended): the concrete two-junction road yields the
full-length (100) symmetric edge. -/
theorem claim_C3_witness :
    loadEdgeStep lmC3.roads_raw mapC3.junctions [(0, []), (1, [])] (0, [0, 1]) =
      some lmC3.adjacency ∧
    lookupA 0 lmC3.roads_raw = some ⟨0, [⟨0,0,0⟩, ⟨100,0,0⟩], 100⟩ ∧
    findEdge lmC3.adjacency 0 1 = some ⟨0, 100⟩ ∧
    findEdge lmC3.adjacency 1 0 = some ⟨0, 100⟩ := by
  have hstep : loadEdgeStep lmC3.roads_raw mapC3.junctions [(0, []), (1, [])] (0, [0, 1]) =
      some lmC3.adjacency := by decide
  have h := claim_C3 lmC3.roads_raw mapC3.junctions [(0, []), (1, [])] lmC3.adjacency
    0 0 1 ⟨0, [⟨0,0,0⟩, ⟨100,0,0⟩], 100⟩ hstep (by decide) (by decide)
  exact ⟨hstep, by decide, h.1, h.2⟩

theorem advanceRoute_head {rid : ℤ} {roads : List ℤ} (flag : Bool)
    (h : roads.head? = some rid) : advanceRoute rid roads flag = (roads, flag) := by
  cases roads with
  | nil => simp at h
  | cons r rest =>
    simp only [List.head?_cons, Option.some.injEq] at h
    subst h
    simp [advanceRoute]

theorem processRouteLogic_offroute_none {s : NavState} {rid : ℤ}
    (hoff : rid ∉ s.current_route_roads) :
    processRouteLogic s rid none = some s := by
  simp [processRouteLogic, hoff]

theorem recalculateRoute_no_junctions {s : NavState} {rid : ℤ}
    (h : connectedJunctions s.junctions_raw rid = []) :
    recalculateRoute s rid = some s := by
  unfold recalculateRoute
  rw [h]

theorem recalculateRoute_cases {s : NavState} {rid : ℤ} {s' : NavState}
    (h : recalculateRoute s rid = some s') :
    (connectedJunctions s.junctions_raw rid = [] ∧ s' = s) ∨
    s'.current_route_roads.head? = some rid := by
  unfold recalculateRoute at h
  cases hcj : connectedJunctions s.junctions_raw rid with
  | nil =>
    rw [hcj] at h
    exact Or.inl ⟨rfl, (Option.some.inj h).symm⟩
  | cons j rest =>
    rw [hcj] at h
    simp only [Option.bind_eq_bind] at h
    obtain ⟨roads, hr, hpure⟩ := Option.bind_eq_some.mp h
    simp only [Option.pure_def, Option.some.injEq] at hpure
    right
    by_cases hc : roads = [] ∨ roads.head? ≠ some rid
    · rw [if_pos hc] at hpure
      rw [← hpure]
      rfl
    · rw [if_neg hc] at hpure
      push_neg at hc
      rw [← hpure]
      exact hc.2

theorem processRouteLogic_route_unchanged {s s2 : NavState} {rid : ℤ}
    {dist : Option ℚ}
    (h : processRouteLogic s rid dist = some s2)
    (hroads : s2.current_route_roads = s.current_route_roads) :
    s2 = s ∧ ∀ t : NavState, t.current_route_roads = s.current_route_roads →
      t.junctions_raw = s.junctions_raw →
      processRouteLogic t rid dist = some t := by
  by_cases hon : rid ∈ s.current_route_roads
  · rw [processRouteLogic_onroute hon] at h
    injection h with h
    rw [← h] at hroads
    have hadv1 : (advanceRoute rid s.current_route_roads s.next_maneuver_emitted).1 =
        s.current_route_roads := hroads
    obtain ⟨hhead, hadv⟩ := advanceRoute_eq_self hon hadv1
    have hs2 : s2 = s := by
      rw [← h, hadv]
    refine ⟨hs2, ?_⟩
    intro t ht hjt
    have hont : rid ∈ t.current_route_roads := by rw [ht]; exact hon
    have hheadt : t.current_route_roads.head? = some rid := by rw [ht]; exact hhead
    rw [processRouteLogic_onroute hont, advanceRoute_head _ hheadt]
  · cases dist with
    | none =>
      rw [processRouteLogic_offroute_none hon] at h
      refine ⟨(Option.some.inj h).symm, ?_⟩
      intro t ht hjt
      exact processRouteLogic_offroute_none (by rw [ht]; exact hon)
    | some d =>
      rw [processRouteLogic_offroute hon] at h
      by_cases hd : d < OFF_ROUTE_TOLERANCE
      · rw [if_pos hd] at h
        rcases recalculateRoute_cases h with ⟨hconn, hs2⟩ | hhead
        · refine ⟨hs2, ?_⟩
          intro t ht hjt
          rw [processRouteLogic_offroute (by rw [ht]; exact hon), if_pos hd]
          exact recalculateRoute_no_junctions (by rw [hjt]; exact hconn)
        · exfalso
          apply hon
          rw [← hroads]
          exact List.mem_of_mem_head? hhead
      · rw [if_neg hd] at h
        refine ⟨(Option.some.inj h).symm, ?_⟩
        intro t ht hjt
        rw [processRouteLogic_offroute (by rw [ht]; exact hon), if_neg hd]

theorem processEmit_flag_true {s : NavState} {pos : Pt} {rid : ℤ}
    {s' : NavState} {out : List String}
    (h : processEmit s pos rid = some (s', out))
    (hflag : s.next_maneuver_emitted = true) : out = [] := by
  by_contra hne
  obtain ⟨-, -, -, -, -, -, -, -, -, h10⟩ := processEmit_spec h
  have := (h10 hne).1
  rw [hflag] at this
  exact absurd this (by simp)

theorem process_out_le_one {s : NavState} {pos : Pt} {s' : NavState}
    {out : List String} (h : process s pos = some (s', out)) :
    out.length ≤ 1 := by
  unfold process at h
  cases hm : getClosestRoad pos s.roads_raw with
  | mk orid odist =>
    rw [hm] at h
    cases orid with
    | none =>
      have h' : some (s, ([] : List String)) = some (s', out) := h
      simp only [Option.some.injEq, Prod.mk.injEq] at h'
      rw [← h'.2]
      simp
    | some rid =>
      have h' : processMatched s pos rid odist = some (s', out) := h
      unfold processMatched at h'
      simp only [Option.bind_eq_bind] at h'
      obtain ⟨t, -, hemit⟩ := Option.bind_eq_some.mp h'
      exact (processEmit_spec hemit).2.2.2.2.2.2.2.1

/-- C7: processing the same position sample in two consecutive ticks with
an unchanged route emits at most one notification across both calls: the
first emission sets the maneuver flag, the unchanged route excludes the
leg change and the effective route recomputation that are the only ways to
clear it, and a set flag blocks the second emission. -/
theorem claim_C7 (s : NavState) (pos : Pt) (s1 s2 : NavState)
    (out1 out2 : List String)
    (h1 : process s pos = some (s1, out1))
    (h2 : process s1 pos = some (s2, out2))
    (hroute : s1.current_route_roads = s.current_route_roads) :
    out1.length + out2.length ≤ 1 := by
  by_cases hout1 : out1 = []
  · have hle2 := process_out_le_one h2
    rw [hout1]
    simpa using hle2
  · have hle1 := process_out_le_one h1
    suffices hout2 : out2 = [] by
      rw [hout2]
      simpa using hle1
    unfold process at h1
    cases hm : getClosestRoad pos s.roads_raw with
    | mk orid odist =>
      rw [hm] at h1
      cases orid with
      | none =>
        have h1' : some (s, ([] : List String)) = some (s1, out1) := h1
        simp only [Option.some.injEq, Prod.mk.injEq] at h1'
        exact absurd h1'.2.symm hout1
      | some rid =>
        have h1' : processMatched s pos rid odist = some (s1, out1) := h1
        unfold processMatched at h1'
        simp only [Option.bind_eq_bind] at h1'
        obtain ⟨t1, hroutel, hemit⟩ := Option.bind_eq_some.mp h1'
        have espec := processEmit_spec hemit
        have ht1roads : t1.current_route_roads = s.current_route_roads := by
          rw [← hroute]
          exact espec.1.symm
        obtain ⟨hs2eq, hidem⟩ := processRouteLogic_route_unchanged hroutel ht1roads
        rw [hs2eq] at hemit espec
        have hflag1 : s1.next_maneuver_emitted = true :=
          (espec.2.2.2.2.2.2.2.2.2 hout1).2
        have hjr : s1.junctions_raw = s.junctions_raw := espec.2.2.2.1
        have hrr : s1.roads_raw = s.roads_raw := espec.2.2.1
        unfold process at h2
        have hm2 : getClosestRoad pos s1.roads_raw = (some rid, odist) := by
          rw [hrr]; exact hm
        rw [hm2] at h2
        have h2' : processMatched s1 pos rid odist = some (s2, out2) := h2
        unfold processMatched at h2'
        simp only [Option.bind_eq_bind] at h2'
        obtain ⟨t2, hroutel2, hemit2⟩ := Option.bind_eq_some.mp h2'
        have hidem1 : processRouteLogic s1 rid odist = some s1 :=
          hidem s1 hroute hjr
        rw [hidem1] at hroutel2
        have ht2 : t2 = s1 := (Option.some.inj hroutel2).symm
        subst ht2
        exact processEmit_flag_true hemit2 hflag1

/-- The state used by the C7 witness: an active two-leg route `[7, 8]`
through junction 0 at `(10,0,0)`, flag clear. -/
def lmC7 : NavState :=
  { adjacency := [], junction_locations := [],
    roads_raw := [(7, ⟨7, [⟨0,0,0⟩, ⟨10,0,0⟩], 10⟩), (8, ⟨8, [⟨10,0,0⟩, ⟨10,10,0⟩], 10⟩)],
    junctions_raw := [⟨⟨10,0,0⟩, [7, 8]⟩],
    destination_junction_idx := 1,
    current_route_junctions := [0], current_route_roads := [7, 8],
    last_known_road_id := none, next_maneuver_emitted := false }

/-- The state after the first C7 witness tick: the maneuver was emitted. -/
def lmC7r : NavState :=
  { lmC7 with
    last_known_road_id := some 7
    next_maneuver_emitted := true }

theorem matchC7_eval : getClosestRoad ⟨5,0,0⟩ lmC7.roads_raw = (some 7, some 0) := by
  norm_num [getClosestRoad, lmC7, scanRoad, scanSeg, segPairs, distToSegment,
    Vector3.sub, Vector3.distance, Vector3.distance_sq, Vector3.dot, ratSqrt,
    show (([⟨0,0,0⟩, ⟨10,0,0⟩] : List Pt) = []) = False from by simp,
    show (([⟨10,0,0⟩, ⟨10,10,0⟩] : List Pt) = []) = False from by simp,
    show isqrt 0 = 0 from by decide, show isqrt 1 = 1 from by decide,
    show Int.toNat 25 = 25 from by decide, show isqrt 25 = 5 from by decide]

theorem runC7_one : process lmC7 ⟨5,0,0⟩ = some (lmC7r, ["Turn Left in 5m"]) := by
  unfold process
  rw [matchC7_eval]
  show processMatched lmC7 ⟨5,0,0⟩ 7 (some 0) = _
  unfold processMatched
  rw [processRouteLogic_onroute (by decide)]
  simp only [Option.bind_eq_bind, Option.some_bind]
  norm_num [advanceRoute, processEmit, findConnectingJunction, determineManeuver,
    incomingVec, outgoingVec, classifyTurn, Vector3.normalize, Vector3.dot,
    Vector3.cross_y, Vector3.sub, Vector3.distance, Vector3.distance_sq, ratSqrt,
    NOTIFICATION_DISTANCE, lmC7, lmC7r, lookupA, ptZero,
    show isqrt 25 = 5 from by decide, show isqrt 100 = 10 from by decide,
    show isqrt 1 = 1 from by decide, show Int.toNat 25 = 25 from by decide,
    show Int.toNat 100 = 100 from by decide,
    show ((5 : ℚ)).floor = 5 from by decide,
    show (([⟨0,0,0⟩, ⟨10,0,0⟩] : List Pt) = []) = False from by simp,
    show (([⟨10,0,0⟩, ⟨10,10,0⟩] : List Pt) = []) = False from by simp]
  rfl

theorem runC7_two : process lmC7r ⟨5,0,0⟩ = some (lmC7r, []) := by
  unfold process
  rw [show getClosestRoad ⟨5,0,0⟩ lmC7r.roads_raw = (some 7, some 0) from matchC7_eval]
  show processMatched lmC7r ⟨5,0,0⟩ 7 (some 0) = _
  unfold processMatched
  rw [processRouteLogic_onroute (by decide)]
  simp only [Option.bind_eq_bind, Option.some_bind]
  norm_num [advanceRoute, processEmit, findConnectingJunction, lmC7r, lmC7, lookupA,
    Vector3.distance, Vector3.distance_sq, ratSqrt, NOTIFICATION_DISTANCE,
    show isqrt 25 = 5 from by decide, show isqrt 1 = 1 from by decide,
    show Int.toNat 25 = 25 from by decide]

/-- Witness for C7: replaying `(5,0,0)` on the two-leg route emits
"Turn Left in 5m" on the first tick only; across the two ticks exactly one
notification is produced. -/
theorem claim_C7_witness :
    process lmC7 ⟨5,0,0⟩ = some (lmC7r, ["Turn Left in 5m"]) ∧
    process lmC7r ⟨5,0,0⟩ = some (lmC7r, []) ∧
    lmC7r.current_route_roads = lmC7.current_route_roads ∧
    (["Turn Left in 5m"] : List String).length + ([] : List String).length ≤ 1 :=
  ⟨runC7_one, runC7_two, rfl,
    claim_C7 lmC7 ⟨5,0,0⟩ lmC7r lmC7r ["Turn Left in 5m"] [] runC7_one runC7_two rfl⟩
